import Mathlib

/-!
Verification development for the Knowledge-Builder repository.

The definitions below are shallow embeddings of the repository's graph
derivation, deletion cascade, link editing, topic creation and tree layout
logic.  Each definition mirrors a concrete function of the source:

* `updateNotePrereqs`      — prerequisite normalisation of `updateNote`
                             (backend/controllers/noteController)
* `deleteNote`             — the deletion cascade of `deleteNote`
* `addPrereqToNote`,
  `addNextPrereqs`         — the interactive link edits of `handleSaveLinks`
                             (frontend GraphView)
* `createTopic`            — duplicate-name handling of `createTopic`
                             (backend/controllers/topicController)
* `getGraphByTopic`        — the topic-scoped graph builder
* `getGraphFull`           — the whole-graph builder
* `toD3Tree`               — the D3 tree layout adapter

Stateful database access is modelled by explicit state passing over lists of
records; JavaScript `Map`s are modelled as association lists with the same
insertion-order semantics; JavaScript numbers in the layout are modelled as
rationals (all arithmetic performed there is exact halving and integer
arithmetic).
-/

/-- JS `if (!acc.includes(x)) acc.push(x)` step, used both by the deletion
cascade and by `[...new Set(l)]` style deduplication. -/
def pushUnique {α : Type} [DecidableEq α] (acc : List α) (x : α) : List α :=
  if x ∈ acc then acc else acc ++ [x]

/-- JS `[...new Set(l)]`: deduplicate keeping first occurrences in order. -/
def jsUniq {α : Type} [DecidableEq α] (l : List α) : List α :=
  l.foldl pushUnique []

/-- A Mongo ObjectId string: 24 hexadecimal characters
(regex `^[0-9a-fA-F]{24}$` in the controllers). -/
def isValidObjectId (s : String) : Bool :=
  s.data.length = 24 && s.data.all (fun c => c.isDigit || ('a' ≤ c && c ≤ 'f') || ('A' ≤ c && c ≤ 'F'))

/-- The composite id `` `${a}-${b}` `` used by the whole-graph builder. -/
def compositeId (a b : String) : String :=
  a ++ "-" ++ b

/-- An id that does not contain the `'-'` separator (Mongo ObjectIds are hex
strings, so this holds for all persisted ids). -/
def hyphenFree (s : String) : Prop :=
  '-' ∉ s.data

instance (s : String) : Decidable (hyphenFree s) := by
  unfold hyphenFree; infer_instance

/-! ## Note controller: update normalisation and deletion cascade -/

/-- Prerequisite normalisation in `updateNote`: drop self-references and
malformed ids, then deduplicate (`[...new Set(validPrerequisites)]`). -/
def updateNotePrereqs (noteId : String) (prereqs : List String) : List String :=
  jsUniq (prereqs.filter (fun p => p ≠ noteId ∧ isValidObjectId p))

/-- A stored note as the deletion cascade sees it: its id and its
prerequisite reference list (ObjectIds rendered as strings). -/
structure DNote where
  id : String
  prerequisites : List String
deriving DecidableEq, Repr

/-- Rewiring of one dependent in `deleteNote`: remove the deleted id, then
push each of the deleted note's prerequisites that is not already present. -/
def splicePrereqs (deletedId : String) (donor : List String) (prereqs : List String) : List String :=
  donor.foldl pushUnique (prereqs.filter (fun p => p ≠ deletedId))

/-- The deletion cascade of `deleteNote`: find the note (404 → `none`),
rewire every dependent via `splicePrereqs`, then delete the note itself.
The per-dependent `findByIdAndUpdate` calls and the final `findByIdAndDelete`
are modelled as a map over the store followed by removal of the deleted id;
this coincides with the database effect whenever ids are unique. -/
def deleteNote (id : String) (notes : List DNote) : Option (List DNote) :=
  match notes.find? (fun n => n.id = id) with
  | none => none
  | some note =>
      let donor := note.prerequisites
      let updated := notes.map (fun n =>
        if id ∈ n.prerequisites then
          { n with prerequisites := splicePrereqs id donor n.prerequisites }
        else n)
      some (updated.filter (fun n => n.id ≠ id))

/-! ## Interactive link edits (`handleSaveLinks` in GraphView) -/

/-- The "add prerequisite" branch: reject a self-reference, reject an already
present prerequisite, otherwise append. -/
def addPrereqToNote (noteId : String) (notePrereqs : List String) (prereqId : String) :
    Option (List String) :=
  if prereqId = noteId then none
  else if prereqId ∈ notePrereqs then none
  else some (notePrereqs ++ [prereqId])

/-- The "add next" branch: reject `next == note`, reject when `note` is
already a prerequisite of `next`, otherwise drop from `next`'s prerequisites
those that are also prerequisites of `note` and append `note`'s id. -/
def addNextPrereqs (curId : String) (curPrereqs : List String)
    (nextId : String) (nextPrereqs : List String) : Option (List String) :=
  if nextId = curId then none
  else if curId ∈ nextPrereqs then none
  else some (nextPrereqs.filter (fun p => p ∉ curPrereqs) ++ [curId])

/-! ## Topic controller: creation with duplicate-name resolution -/

/-- JS `name.trim()`: strip leading and trailing whitespace.  (Structural
model of the runtime's trim; Mongo ObjectIds and topic names are ASCII in
this code base.) -/
def jsTrim (s : String) : String :=
  ⟨((s.data.dropWhile Char.isWhitespace).reverse.dropWhile Char.isWhitespace).reverse⟩

/-- A stored topic record (id, name, owning user). -/
structure TopicRec where
  id : String
  name : String
  user : String
deriving DecidableEq, Repr

/-- `createTopic`: empty trimmed name → error (`none`); an existing topic
with the same trimmed name for the same user is returned unchanged;
otherwise a fresh topic is persisted.  Result: the returned entity and the
updated store. -/
def createTopic (name user freshId : String) (topics : List TopicRec) :
    Option (TopicRec × List TopicRec) :=
  if jsTrim name = "" then none
  else
    match topics.find? (fun t => t.name = jsTrim name ∧ t.user = user) with
    | some t => some (t, topics)
    | none =>
        let t : TopicRec := ⟨freshId, jsTrim name, user⟩
        some (t, topics ++ [t])

/-! ## Graph builder: shared node/edge shapes -/

/-- A derived graph node `{id, name, type}` as emitted by the builders and
consumed by the layout adapter. -/
structure GNode where
  id : String
  name : String
  type : String
deriving DecidableEq, Repr

/-- A derived graph edge `{id, source, target}`. -/
structure Edge where
  id : String
  source : String
  target : String
deriving DecidableEq, Repr

/-! ## Topic-scoped graph builder (`getGraphByTopic`) -/

/-- A populated prerequisite stub in the topic view
(`populate('prerequisites', '_id title topics')`). -/
structure TPrereq where
  id : String
  title : String
  topics : List String
deriving DecidableEq, Repr

/-- A member note in the topic view (`select('_id title prerequisites')`). -/
structure TNote where
  id : String
  title : String
  prerequisites : List TPrereq
deriving DecidableEq, Repr

/-- The topic entity (only its id and name are consumed). -/
structure Topic where
  id : String
  name : String
deriving DecidableEq, Repr

/-- JS `Map.set`: replace the value at an existing key in place, else append. -/
def mapSet (m : List (String × GNode)) (k : String) (v : GNode) : List (String × GNode) :=
  if m.any (fun kv => kv.1 = k) then
    m.map (fun kv => if kv.1 = k then (k, v) else kv)
  else m ++ [(k, v)]

/-- The initial node map: the topic node followed by one node per member note. -/
def topicSeedMap (topic : Topic) (notes : List TNote) : List (String × GNode) :=
  notes.foldl (fun m n => mapSet m n.id ⟨n.id, n.title, "note"⟩)
    (mapSet [] topic.id ⟨topic.id, topic.name, "topic"⟩)

/-- Edge pass for one member note: add an edge from each prerequisite
(pulling it into the node map if absent), or a single fallback edge from the
topic when the note has no prerequisites at all. -/
def addPrereqEdges (topic : Topic) (st : List (String × GNode) × List Edge) (note : TNote) :
    List (String × GNode) × List Edge :=
  if note.prerequisites.length > 0 then
    note.prerequisites.foldl (fun st p =>
      let nm := if st.1.any (fun kv => kv.1 = p.id) then st.1
                else st.1 ++ [(p.id, ⟨p.id, p.title, "note"⟩)]
      (nm, st.2 ++ [⟨p.id ++ "-" ++ note.id, p.id, note.id⟩])) st
  else
    (st.1, st.2 ++ [⟨topic.id ++ "-" ++ note.id, topic.id, note.id⟩])

/-- Node map and edge list after the prerequisite-edge construction pass. -/
def topicPass (topic : Topic) (notes : List TNote) : List (String × GNode) × List Edge :=
  notes.foldl (addPrereqEdges topic) (topicSeedMap topic notes, [])

/-- Post-pass: connect every external prerequisite node that still has no
incoming edge directly to the topic node. -/
def addFallbacks (topic : Topic) (topicNoteIds : List String)
    (nm : List (String × GNode)) (edges : List Edge) : List Edge :=
  nm.foldl (fun es kv =>
    if kv.2.type = "note" ∧ kv.1 ∉ topicNoteIds ∧ ¬ es.any (fun e => e.target = kv.1) then
      es ++ [⟨topic.id ++ "-" ++ kv.1, topic.id, kv.1⟩]
    else es) edges

/-- `getGraphByTopic` restricted to its pure part: the topic is already
found and `notes` are the member notes returned by the store. -/
def getGraphByTopic (topic : Topic) (notes : List TNote) : List GNode × List Edge :=
  let st := topicPass topic notes
  (st.1.map (fun kv => kv.2), addFallbacks topic (notes.map (fun n => n.id)) st.1 st.2)

/-! ## Whole-graph builder (`getGraph`) -/

/-- A populated prerequisite stub in whole-graph mode
(`populate('prerequisites', '_id topics')`).  Dangling references populate
to `null`; they are modelled as `none` entries of the prerequisite list. -/
structure WPrereq where
  id : String
  topics : List String
deriving DecidableEq, Repr

/-- A note in whole-graph mode (`select('_id title topics prerequisites')`). -/
structure WNote where
  id : String
  title : String
  topics : List String
  prerequisites : List (Option WPrereq)
deriving DecidableEq, Repr

/-- A whole-graph node: note nodes carry the original note id. -/
structure WGNode where
  id : String
  noteId : Option String
  name : String
  type : String
deriving DecidableEq, Repr

/-- `validPrereqs`: keep the populated (non-null) prerequisite stubs. -/
def validPrereqs (n : WNote) : List WPrereq :=
  n.prerequisites.filterMap (fun p => p)

/-- The whole-graph node list: one topic node per topic, then one composite
node per (note, topic) membership pair. -/
def getGraphNodes (topics : List Topic) (notes : List WNote) : List WGNode :=
  topics.map (fun t => ⟨t.id, none, t.name, "topic"⟩) ++
    notes.flatMap (fun n =>
      n.topics.map (fun t => ⟨compositeId n.id t, some n.id, n.title, "note"⟩))

/-- The prerequisites of `n` that also belong to topic `t`. -/
def prereqsInSameTopic (n : WNote) (t : String) : List WPrereq :=
  (validPrereqs n).filter (fun p => p.topics.any (fun u => u = t))

/-- The edges emitted for one (note, topic) membership pair: one edge per
same-topic prerequisite, or a single fallback edge from the topic node. -/
def wEdgesFor (n : WNote) (t : String) : List Edge :=
  let nodeId := compositeId n.id t
  let inTopic := prereqsInSameTopic n t
  if inTopic.length > 0 then
    inTopic.map (fun p =>
      ⟨"prereq-" ++ compositeId p.id t ++ "-" ++ nodeId, compositeId p.id t, nodeId⟩)
  else
    [⟨"topic-" ++ t ++ "-" ++ nodeId, t, nodeId⟩]

/-- The whole-graph edge list: the per-pair edges over every note and every
topic it belongs to. -/
def getGraphEdges (notes : List WNote) : List Edge :=
  notes.flatMap (fun n => n.topics.flatMap (wEdgesFor n))

/-- `getGraph` restricted to its pure part. -/
def getGraphFull (topics : List Topic) (notes : List WNote) : List WGNode × List Edge :=
  (getGraphNodes topics notes, getGraphEdges notes)

/-! ## Tree layout engine (`D3TreeLayoutAdapter.toD3Tree`) -/

/-- Forward adjacency: `childrenMap.get(id) || []`, targets in edge order. -/
def childrenOf (edges : List Edge) (id : String) : List String :=
  (edges.filter (fun e => e.source = id)).map (fun e => e.target)

/-- Backward adjacency: `parentsMap.get(id) || []`, sources in edge order. -/
def parentsOf (edges : List Edge) (id : String) : List String :=
  (edges.filter (fun e => e.target = id)).map (fun e => e.source)

/-- Helper for the BFS termination measure: edges whose source has not been
visited yet. -/
def unvisitedEdges (edges : List Edge) (visited : List String) : Nat :=
  (edges.filter (fun e => e.source ∉ visited)).length

theorem unvisitedEdges_cons (edges : List Edge) (id : String) (visited : List String)
    (h : id ∉ visited) :
    unvisitedEdges edges visited =
      unvisitedEdges edges (id :: visited) + (edges.filter (fun e => e.source = id)).length := by
  induction edges with
  | nil => simp [unvisitedEdges]
  | cons e es ih =>
    simp only [unvisitedEdges, List.filter_cons] at ih ⊢
    by_cases hs : e.source = id
    · have h1 : e.source ∉ visited := by rw [hs]; exact h
      have h2 : e.source ∈ id :: visited := by simp [hs]
      simp [h1, h2, hs, h] at ih ⊢
      omega
    · by_cases hv : e.source ∈ visited
      · have h2 : e.source ∈ id :: visited := by simp [hv]
        simp [hv, h2, hs] at ih ⊢
        omega
      · have h2 : e.source ∉ id :: visited := by simp [hs, hv]
        simp [hv, h2, hs] at ih ⊢
        omega

/-- The per-root breadth-first traversal of `toD3Tree`: pops `(id, level)`
pairs, skips already-visited ids, otherwise records the id at its level and
enqueues its unvisited children one level deeper.  Returns the visited
`(id, level)` pairs in visitation order (the `treeNodes` map). -/
def bfs (edges : List Edge) (queue : List (String × Nat)) (visited : List String)
    (acc : List (String × Nat)) : List (String × Nat) :=
  match queue with
  | [] => acc
  | (id, level) :: rest =>
    if id ∈ visited then bfs edges rest visited acc
    else
      let children := childrenOf edges id
      let pushes := (children.filter (fun c => c ∉ id :: visited)).map (fun c => (c, level + 1))
      bfs edges (rest ++ pushes) (id :: visited) (acc ++ [(id, level)])
termination_by queue.length + unvisitedEdges edges visited
decreasing_by
  · simp only [List.length_cons]; omega
  · simp only [List.length_append, List.length_cons, List.length_map]
    have hsplit := unvisitedEdges_cons edges id visited (by assumption)
    have hle : ((childrenOf edges id).filter (fun c => c ∉ id :: visited)).length ≤
        (edges.filter (fun e => e.source = id)).length := by
      calc ((childrenOf edges id).filter (fun c => c ∉ id :: visited)).length
          ≤ (childrenOf edges id).length := List.length_filter_le _ _
        _ = (edges.filter (fun e => e.source = id)).length := by
            simp [childrenOf]
    omega

/-- Group the BFS result by level, preserving first-occurrence order of the
levels and visitation order inside each level (the `levelGroups` map). -/
def levelGroups (tn : List (String × Nat)) : List (Nat × List String) :=
  tn.foldl (fun gs p =>
    if gs.any (fun g => g.1 = p.2) then
      gs.map (fun g => if g.1 = p.2 then (g.1, g.2 ++ [p.1]) else g)
    else gs ++ [(p.2, [p.1])]) []

/-- The maximal number of nodes in any level of a tree. -/
def maxNodesInLevel (gs : List (Nat × List String)) : Nat :=
  gs.foldl (fun m g => max m g.2.length) 0

/-- A positioned node `{...node, x, y}`. -/
structure PosNode where
  id : String
  name : String
  type : String
  x : ℚ
  y : ℚ
deriving DecidableEq, Repr

/-- A positioned link: resolved source and target nodes. -/
structure PosLink where
  source : PosNode
  target : PosNode
deriving DecidableEq, Repr

/-- Mutable layout state threaded through the per-root loop: the
`positionedNodes` set, the output node list, and the vertical cursor. -/
structure LayoutSt where
  positioned : List String
  nodes : List PosNode
  currentY : ℚ
deriving DecidableEq, Repr

/-- `{...nodeMap.get(nodeId), x, y}`; the lookup never fails when every
edge endpoint is a declared node (the non-null assertion of the source). -/
def mkPosNode (nm : List (String × GNode)) (nodeId : String) (x y : ℚ) : PosNode :=
  match nm.find? (fun kv => kv.1 = nodeId) with
  | some kv => ⟨kv.2.id, kv.2.name, kv.2.type, x, y⟩
  | none => ⟨nodeId, "", "", x, y⟩

/-- Position one level group: walk the ids with their index, skip ids that
are already positioned, place the rest at
`x = 100 + level * levelSpacing`, `y = startY + index * nodeSpacing`. -/
def placeNodes (nm : List (String × GNode)) (nodeSpacing levelSpacing startY : ℚ) (level : Nat) :
    List String → Nat → List String × List PosNode × Nat → List String × List PosNode × Nat
  | [], _, st => st
  | nodeId :: rest, index, (positioned, out, added) =>
    if nodeId ∈ positioned then
      placeNodes nm nodeSpacing levelSpacing startY level rest (index + 1) (positioned, out, added)
    else
      placeNodes nm nodeSpacing levelSpacing startY level rest (index + 1)
        (nodeId :: positioned,
         out ++ [mkPosNode nm nodeId (100 + (level : ℚ) * levelSpacing)
                   (startY + (index : ℚ) * nodeSpacing)],
         added + 1)

/-- Lay out one root's tree: compute the level groups and the tree height,
vertically centre each group, position its not-yet-positioned nodes, and
advance the vertical cursor by `treeHeight + 80` when at least one node was
newly placed. -/
def placeTree (nm : List (String × GNode)) (nodeSpacing levelSpacing : ℚ)
    (st : LayoutSt) (tn : List (String × Nat)) : LayoutSt :=
  let gs := levelGroups tn
  let treeHeight := max ((maxNodesInLevel gs : ℚ) * nodeSpacing) nodeSpacing
  let res := gs.foldl (fun acc g =>
      placeNodes nm nodeSpacing levelSpacing
        (st.currentY + (treeHeight - ((g.2.length : ℚ) - 1) * nodeSpacing) / 2)
        g.1 g.2 0 acc)
    (st.positioned, st.nodes, 0)
  { positioned := res.1, nodes := res.2.1,
    currentY := if res.2.2 > 0 then st.currentY + treeHeight + 80 else st.currentY }

/-- `toD3Tree`: roots are the nodes with no incoming edge; each root's tree
is laid out in turn starting from vertical cursor 100; links are the edges
whose endpoints both resolved against the positioned-node table. -/
def toD3Tree (nodes : List GNode) (edges : List Edge) (nodeSpacing levelSpacing : ℚ) :
    List PosNode × List PosLink :=
  if nodes.isEmpty then ([], [])
  else
    let roots := nodes.filter (fun n => (parentsOf edges n.id).isEmpty)
    let nm := nodes.map (fun n => (n.id, n))
    let final := roots.foldl
      (fun st root => placeTree nm nodeSpacing levelSpacing st (bfs edges [(root.id, 0)] [] []))
      ⟨[], [], 100⟩
    let links := edges.filterMap (fun e =>
      match final.nodes.find? (fun p => p.id = e.source),
            final.nodes.find? (fun p => p.id = e.target) with
      | some s, some t => some (⟨s, t⟩ : PosLink)
      | _, _ => none)
    (final.nodes, links)

/-- Reachability along forward (prerequisite/topic → dependent) edges. -/
inductive Reach (edges : List Edge) : String → String → Prop
  | refl (a : String) : Reach edges a a
  | step {a b c : String} : Reach edges a b → c ∈ childrenOf edges b → Reach edges a c

/-! ## Basic lemmas about the deduplicating push -/

theorem mem_pushUnique {α : Type} [DecidableEq α] (acc : List α) (x y : α) :
    y ∈ pushUnique acc x ↔ y ∈ acc ∨ y = x := by
  unfold pushUnique
  split
  · rename_i h
    constructor
    · exact fun hy => Or.inl hy
    · rintro (hy | rfl)
      · exact hy
      · exact h
  · simp

theorem mem_foldl_pushUnique {α : Type} [DecidableEq α] (l acc : List α) (y : α) :
    y ∈ l.foldl pushUnique acc ↔ y ∈ acc ∨ y ∈ l := by
  induction l generalizing acc with
  | nil => simp
  | cons a l ih =>
    simp only [List.foldl_cons, ih, mem_pushUnique, List.mem_cons]
    tauto

theorem nodup_pushUnique {α : Type} [DecidableEq α] (acc : List α) (x : α) (h : acc.Nodup) :
    (pushUnique acc x).Nodup := by
  unfold pushUnique
  split
  · exact h
  · rename_i hx
    simp [List.nodup_append, h, hx]

theorem nodup_foldl_pushUnique {α : Type} [DecidableEq α] (l acc : List α) (h : acc.Nodup) :
    (l.foldl pushUnique acc).Nodup := by
  induction l generalizing acc with
  | nil => exact h
  | cons a l ih => exact ih _ (nodup_pushUnique _ _ h)

theorem mem_splicePrereqs (deletedId : String) (donor prereqs : List String) (x : String) :
    x ∈ splicePrereqs deletedId donor prereqs ↔
      (x ∈ prereqs ∧ x ≠ deletedId) ∨ x ∈ donor := by
  unfold splicePrereqs
  rw [mem_foldl_pushUnique]
  simp [List.mem_filter, or_comm]

theorem nodup_splicePrereqs (deletedId : String) (donor prereqs : List String)
    (h : prereqs.Nodup) : (splicePrereqs deletedId donor prereqs).Nodup :=
  nodup_foldl_pushUnique _ _ (h.filter _)

/-- `find?` by id returns the unique element carrying that id when the id
list is duplicate-free. -/
theorem find?_id_eq (notes : List DNote) (nd : DNote) (id : String)
    (hnd : (notes.map (fun n => n.id)).Nodup) (hmem : nd ∈ notes) (hid : nd.id = id) :
    notes.find? (fun n => n.id = id) = some nd := by
  induction notes with
  | nil => cases hmem
  | cons a l ih =>
    simp only [List.map_cons, List.nodup_cons] at hnd
    rcases List.mem_cons.mp hmem with rfl | htail
    · simp [List.find?_cons, hid]
    · have ha : ¬ (a.id = id) := by
        intro e
        have h1 : nd.id ∈ l.map (fun n => n.id) := List.mem_map_of_mem _ htail
        rw [hid, ← e] at h1
        exact hnd.1 h1
      simpa [List.find?_cons, ha] using ih hnd.2 htail

/-! ## C8: topic creation with an existing name -/

/-- C8: creating a topic whose trimmed name already exists for the owner
succeeds by returning the existing topic entity, and leaves the topic store
unchanged — no second topic with that name is created. -/
theorem createTopic_returns_existing (name user freshId : String) (topics : List TopicRec)
    (t0 : TopicRec) (ht : t0 ∈ topics) (hname : t0.name = jsTrim name)
    (huser : t0.user = user) (hne : jsTrim name ≠ "") :
    ∃ t, createTopic name user freshId topics = some (t, topics) ∧
      t ∈ topics ∧ t.name = jsTrim name ∧ t.user = user := by
  unfold createTopic
  rw [if_neg hne]
  have hsome : (topics.find? (fun t => t.name = jsTrim name ∧ t.user = user)).isSome := by
    rw [List.find?_isSome]
    exact ⟨t0, ht, by simp [hname, huser]⟩
  obtain ⟨t, hfind⟩ := Option.isSome_iff_exists.mp hsome
  have hp := List.find?_some hfind
  have hm := List.mem_of_find?_eq_some hfind
  simp only [decide_eq_true_eq] at hp
  rw [hfind]
  exact ⟨t, rfl, hm, hp.1, hp.2⟩

/-- Witness for C8 at a concrete store. -/
theorem createTopic_returns_existing_witness :
    ((⟨"t1", "Algebra", "u1"⟩ : TopicRec) ∈ [(⟨"t1", "Algebra", "u1"⟩ : TopicRec)]) ∧
    (⟨"t1", "Algebra", "u1"⟩ : TopicRec).name = jsTrim " Algebra " ∧
    (⟨"t1", "Algebra", "u1"⟩ : TopicRec).user = "u1" ∧
    jsTrim " Algebra " ≠ "" ∧
    (∃ t, createTopic " Algebra " "u1" "t2" [⟨"t1", "Algebra", "u1"⟩] =
        some (t, [⟨"t1", "Algebra", "u1"⟩]) ∧
      t ∈ [(⟨"t1", "Algebra", "u1"⟩ : TopicRec)] ∧
      t.name = jsTrim " Algebra " ∧ t.user = "u1") :=
  ⟨by decide, by decide, by decide, by decide,
    createTopic_returns_existing " Algebra " "u1" "t2" [⟨"t1", "Algebra", "u1"⟩]
      ⟨"t1", "Algebra", "u1"⟩ (by decide) (by decide) (by decide) (by decide)⟩

/-! ## C5: the Add-"next" interactive operation -/

/-- C5: Add-"next" `(note, next)` is rejected exactly when `next` is the
note itself or the note is already a prerequisite of `next`; otherwise the
persisted prerequisite set of `next` is (next's existing prerequisites minus
those that are also prerequisites of the note) plus the note's id. -/
theorem addNext_rejects_or_splices (curId : String) (curPrereqs : List String)
    (nextId : String) (nextPrereqs : List String) :
    (addNextPrereqs curId curPrereqs nextId nextPrereqs = none ↔
      nextId = curId ∨ curId ∈ nextPrereqs) ∧
    ∀ result, addNextPrereqs curId curPrereqs nextId nextPrereqs = some result →
      (∀ x, x ∈ result ↔ (x ∈ nextPrereqs ∧ x ∉ curPrereqs) ∨ x = curId) ∧
      (nextPrereqs.Nodup → result.Nodup) := by
  unfold addNextPrereqs
  by_cases h1 : nextId = curId
  · simp [h1]
  · by_cases h2 : curId ∈ nextPrereqs
    · simp [h1, h2]
    · rw [if_neg h1, if_neg h2]
      refine ⟨by simp [h1, h2], ?_⟩
      intro result hres
      have hres' := Option.some.inj hres
      subst hres'
      constructor
      · intro x
        simp [List.mem_filter]
      · intro hnd
        have hfil : curId ∉ nextPrereqs.filter (fun p => p ∉ curPrereqs) := by
          intro hc
          exact h2 (List.mem_of_mem_filter hc)
        refine List.Nodup.append (hnd.filter _) (List.nodup_singleton curId) ?_
        intro a ha hb
        rw [List.mem_singleton] at hb
        subst hb
        exact hfil ha

/-- Witness for C5 at concrete notes. -/
theorem addNext_rejects_or_splices_witness :
    (addNextPrereqs "cur" ["a", "b"] "nxt" ["a", "c"] = none ↔
      "nxt" = "cur" ∨ "cur" ∈ ["a", "c"]) ∧
    ∀ result, addNextPrereqs "cur" ["a", "b"] "nxt" ["a", "c"] = some result →
      (∀ x, x ∈ result ↔ (x ∈ ["a", "c"] ∧ x ∉ ["a", "b"]) ∨ x = "cur") ∧
      (["a", "c"].Nodup → result.Nodup) :=
  addNext_rejects_or_splices "cur" ["a", "b"] "nxt" ["a", "c"]

/-! ## C3: preservation of the no-self-prerequisite invariant -/

/-- C3 (amended): `updateNote` normalisation and both interactive link-edit
operations always keep a note's own id out of its persisted prerequisite
list; the deletion cascade preserves the invariant provided no dependent of
the deleted note is itself among the deleted note's prerequisites (no
mutual-prerequisite pair through the deleted note). -/
theorem mutations_preserve_no_self_reference :
    (∀ noteId prereqs, noteId ∉ updateNotePrereqs noteId prereqs) ∧
    (∀ noteId notePrereqs prereqId result,
      noteId ∉ notePrereqs →
      addPrereqToNote noteId notePrereqs prereqId = some result →
      noteId ∉ result) ∧
    (∀ curId curPrereqs nextId nextPrereqs result,
      nextId ∉ nextPrereqs →
      addNextPrereqs curId curPrereqs nextId nextPrereqs = some result →
      nextId ∉ result) ∧
    (∀ id notes notes',
      (∀ n ∈ notes, n.id ∉ n.prerequisites) →
      (∀ n ∈ notes, id ∈ n.prerequisites →
        ∀ nd ∈ notes, nd.id = id → n.id ∉ nd.prerequisites) →
      deleteNote id notes = some notes' →
      ∀ n' ∈ notes', n'.id ∉ n'.prerequisites) := by
  refine ⟨?_, ?_, ?_, ?_⟩
  · intro noteId prereqs h
    unfold updateNotePrereqs jsUniq at h
    rw [mem_foldl_pushUnique] at h
    simp at h
  · intro noteId notePrereqs prereqId result hinv hres
    unfold addPrereqToNote at hres
    by_cases h1 : prereqId = noteId
    · rw [if_pos h1] at hres; cases hres
    · rw [if_neg h1] at hres
      by_cases h2 : prereqId ∈ notePrereqs
      · rw [if_pos h2] at hres; cases hres
      · rw [if_neg h2] at hres
        have hres' := Option.some.inj hres
        subst hres'
        intro hc
        rcases List.mem_append.mp hc with hc | hc
        · exact hinv hc
        · have he : noteId = prereqId := by simpa using hc
          exact h1 he.symm
  · intro curId curPrereqs nextId nextPrereqs result hinv hres
    unfold addNextPrereqs at hres
    by_cases h1 : nextId = curId
    · rw [if_pos h1] at hres; cases hres
    · rw [if_neg h1] at hres
      by_cases h2 : curId ∈ nextPrereqs
      · rw [if_pos h2] at hres; cases hres
      · rw [if_neg h2] at hres
        have hres' := Option.some.inj hres
        subst hres'
        intro hc
        rcases List.mem_append.mp hc with hc | hc
        · exact hinv (List.mem_of_mem_filter hc)
        · exact h1 (by simpa using hc)
  · intro id notes notes' hinv hcyc hdel n' hn'
    unfold deleteNote at hdel
    cases hfind : notes.find? (fun n => n.id = id) with
    | none => rw [hfind] at hdel; cases hdel
    | some nd =>
      rw [hfind] at hdel
      have hdel' := Option.some.inj hdel
      subst hdel'
      have hndmem := List.mem_of_find?_eq_some hfind
      have hndid : nd.id = id := by simpa using List.find?_some hfind
      obtain ⟨hmem, -⟩ := List.mem_filter.mp hn'
      obtain ⟨n, hn, hmap⟩ := List.mem_map.mp hmem
      by_cases hdep : id ∈ n.prerequisites
      · rw [if_pos hdep] at hmap
        subst hmap
        intro hc
        simp only at hc
        rcases (mem_splicePrereqs id nd.prerequisites n.prerequisites n.id).mp hc with
          ⟨hin, -⟩ | hin
        · exact hinv n hn hin
        · exact hcyc n hn hdep nd hndmem hndid hin
      · rw [if_neg hdep] at hmap
        subst hmap
        exact hinv n hn

/-- Witness for C3's amended statement: deleting a leaf note from a chain
keeps the invariant. -/
theorem mutations_preserve_no_self_reference_witness :
    (∀ n ∈ [(⟨"D", ["X"]⟩ : DNote), ⟨"X", []⟩], n.id ∉ n.prerequisites) ∧
    (∀ n ∈ [(⟨"D", ["X"]⟩ : DNote), ⟨"X", []⟩], "X" ∈ n.prerequisites →
      ∀ nd ∈ [(⟨"D", ["X"]⟩ : DNote), ⟨"X", []⟩], nd.id = "X" → n.id ∉ nd.prerequisites) ∧
    deleteNote "X" [(⟨"D", ["X"]⟩ : DNote), ⟨"X", []⟩] = some [⟨"D", []⟩] ∧
    ∀ n' ∈ [(⟨"D", []⟩ : DNote)], n'.id ∉ n'.prerequisites :=
  ⟨by decide, by decide, by decide,
    mutations_preserve_no_self_reference.2.2.2 "X"
      [(⟨"D", ["X"]⟩ : DNote), ⟨"X", []⟩] [⟨"D", []⟩]
      (by decide) (by decide) (by decide)⟩

/-- C3 counterexample: starting from a store satisfying the invariant (the
two-cycle `D ⇄ X`, no self-references), the deletion cascade for `X` makes
`D` its own prerequisite — so not every mutating operation preserves the
invariant. -/
theorem deleteNote_introduces_self_reference :
    (∀ n ∈ [(⟨"D", ["X"]⟩ : DNote), ⟨"X", ["D"]⟩], n.id ∉ n.prerequisites) ∧
    deleteNote "X" [(⟨"D", ["X"]⟩ : DNote), ⟨"X", ["D"]⟩] = some [⟨"D", ["D"]⟩] ∧
    ∃ n ∈ [(⟨"D", ["D"]⟩ : DNote)], n.id ∈ n.prerequisites := by
  decide

/-! ## C2: the deletion splice -/

/-- C2: after `deleteNote id` succeeds, no remaining note references `id`,
and every dependent's prerequisite set equals the union of its other prior
prerequisites and the deleted note's prerequisites, deduplicated. -/
theorem deleteNote_splices_dependents (id : String) (notes notes' : List DNote) (nd : DNote)
    (hids : (notes.map (fun n => n.id)).Nodup)
    (hmem : nd ∈ notes) (hid : nd.id = id)
    (hself : id ∉ nd.prerequisites)
    (hdel : deleteNote id notes = some notes') :
    (∀ n' ∈ notes', id ∉ n'.prerequisites) ∧
    (∀ n ∈ notes, n.id ≠ id → id ∈ n.prerequisites →
      ∃ n' ∈ notes', n'.id = n.id ∧
        (∀ x, x ∈ n'.prerequisites ↔ (x ∈ n.prerequisites ∧ x ≠ id) ∨ x ∈ nd.prerequisites) ∧
        (n.prerequisites.Nodup → n'.prerequisites.Nodup)) := by
  unfold deleteNote at hdel
  rw [find?_id_eq notes nd id hids hmem hid] at hdel
  have hdel' := Option.some.inj hdel
  subst hdel'
  constructor
  · intro n' hn'
    obtain ⟨hmm, -⟩ := List.mem_filter.mp hn'
    obtain ⟨n, hn, hmap⟩ := List.mem_map.mp hmm
    by_cases hdep : id ∈ n.prerequisites
    · rw [if_pos hdep] at hmap
      subst hmap
      intro hc
      simp only at hc
      rcases (mem_splicePrereqs id nd.prerequisites n.prerequisites id).mp hc with
        ⟨-, hne⟩ | hin
      · exact hne rfl
      · exact hself hin
    · rw [if_neg hdep] at hmap
      subst hmap
      exact hdep
  · intro n hn hne hdep
    refine ⟨⟨n.id, splicePrereqs id nd.prerequisites n.prerequisites⟩, ?_, rfl, ?_, ?_⟩
    · apply List.mem_filter.mpr
      refine ⟨?_, by simpa using hne⟩
      have := List.mem_map_of_mem
        (fun n => if id ∈ n.prerequisites then
          { n with prerequisites := splicePrereqs id nd.prerequisites n.prerequisites }
          else n) hn
      simpa [if_pos hdep] using this
    · intro x
      exact mem_splicePrereqs id nd.prerequisites n.prerequisites x
    · intro hnd
      exact nodup_splicePrereqs _ _ _ hnd

/-- Witness for C2: the spec's splice scenario `D:{A,X}`, deleted `X:{B}`. -/
theorem deleteNote_splices_dependents_witness :
    ((([(⟨"D", ["A", "X"]⟩ : DNote), ⟨"X", ["B"]⟩, ⟨"A", []⟩, ⟨"B", []⟩]).map
        (fun n => n.id)).Nodup) ∧
    (⟨"X", ["B"]⟩ : DNote) ∈ [(⟨"D", ["A", "X"]⟩ : DNote), ⟨"X", ["B"]⟩, ⟨"A", []⟩, ⟨"B", []⟩] ∧
    "X" ∉ (⟨"X", ["B"]⟩ : DNote).prerequisites ∧
    deleteNote "X" [(⟨"D", ["A", "X"]⟩ : DNote), ⟨"X", ["B"]⟩, ⟨"A", []⟩, ⟨"B", []⟩] =
      some [⟨"D", ["A", "B"]⟩, ⟨"A", []⟩, ⟨"B", []⟩] ∧
    (∀ n' ∈ [(⟨"D", ["A", "B"]⟩ : DNote), ⟨"A", []⟩, ⟨"B", []⟩], "X" ∉ n'.prerequisites) ∧
    (∀ n ∈ [(⟨"D", ["A", "X"]⟩ : DNote), ⟨"X", ["B"]⟩, ⟨"A", []⟩, ⟨"B", []⟩],
      n.id ≠ "X" → "X" ∈ n.prerequisites →
      ∃ n' ∈ [(⟨"D", ["A", "B"]⟩ : DNote), ⟨"A", []⟩, ⟨"B", []⟩], n'.id = n.id ∧
        (∀ x, x ∈ n'.prerequisites ↔
          (x ∈ n.prerequisites ∧ x ≠ "X") ∨ x ∈ (⟨"X", ["B"]⟩ : DNote).prerequisites) ∧
        (n.prerequisites.Nodup → n'.prerequisites.Nodup)) :=
  ⟨by decide, by decide, by decide, by decide,
    (deleteNote_splices_dependents "X"
      [(⟨"D", ["A", "X"]⟩ : DNote), ⟨"X", ["B"]⟩, ⟨"A", []⟩, ⟨"B", []⟩]
      [⟨"D", ["A", "B"]⟩, ⟨"A", []⟩, ⟨"B", []⟩] ⟨"X", ["B"]⟩
      (by decide) (by decide) (by decide) (by decide) (by decide)).1,
    (deleteNote_splices_dependents "X"
      [(⟨"D", ["A", "X"]⟩ : DNote), ⟨"X", ["B"]⟩, ⟨"A", []⟩, ⟨"B", []⟩]
      [⟨"D", ["A", "B"]⟩, ⟨"A", []⟩, ⟨"B", []⟩] ⟨"X", ["B"]⟩
      (by decide) (by decide) (by decide) (by decide) (by decide)).2⟩

/-! ## String-concatenation injectivity for composite ids -/

theorem append_hyphen_inj (a : List Char) : ∀ (c : List Char) (b d : List Char),
    '-' ∉ a → '-' ∉ c → a ++ '-' :: b = c ++ '-' :: d → a = c ∧ b = d := by
  induction a with
  | nil =>
    intro c b d _ hc h
    cases c with
    | nil => simpa using h
    | cons x c =>
      simp only [List.nil_append, List.cons_append, List.cons.injEq] at h
      exact absurd (h.1 ▸ List.mem_cons_self x c) hc
  | cons x a ih =>
    intro c b d ha hc h
    cases c with
    | nil =>
      simp only [List.cons_append, List.nil_append, List.cons.injEq] at h
      exact absurd (h.1 ▸ List.mem_cons_self x a) ha
    | cons y c =>
      simp only [List.cons_append, List.cons.injEq] at h
      have ha' : '-' ∉ a := fun hx => ha (List.mem_cons_of_mem _ hx)
      have hc' : '-' ∉ c := fun hx => hc (List.mem_cons_of_mem _ hx)
      obtain ⟨h1, h2⟩ := ih c b d ha' hc' h.2
      exact ⟨by rw [h.1, h1], h2⟩

theorem compositeId_inj (a b c d : String) (ha : hyphenFree a) (hc : hyphenFree c)
    (h : compositeId a b = compositeId c d) : a = c ∧ b = d := by
  have hdata : a.data ++ ['-'] ++ b.data = c.data ++ ['-'] ++ d.data := congrArg String.data h
  rw [List.append_assoc, List.append_assoc, List.singleton_append, List.singleton_append] at hdata
  obtain ⟨h1, h2⟩ := append_hyphen_inj a.data c.data b.data d.data ha hc hdata
  exact ⟨String.ext h1, String.ext h2⟩

theorem compositeId_hyphen_mem (a b : String) : '-' ∈ (compositeId a b).data := by
  have he : (compositeId a b).data = a.data ++ ['-'] ++ b.data := rfl
  rw [he]
  simp

theorem compositeId_ne_hyphenFree (a b t : String) (ht : hyphenFree t) :
    compositeId a b ≠ t := by
  intro h
  exact ht (h ▸ compositeId_hyphen_mem a b)

/-! ## Counting helpers -/

theorem countP_flatMap {α β : Type} (l : List α) (f : α → List β) (p : β → Bool) :
    (l.flatMap f).countP p = (l.map (fun a => (f a).countP p)).sum := by
  induction l with
  | nil => simp
  | cons a l ih => simp [List.flatMap_cons, List.countP_append, ih]

theorem sum_map_eq_single {α : Type} (l : List α) (c : α → Nat) (g : α → String) (a : α)
    (hnd : (l.map g).Nodup) (ha : a ∈ l) (h0 : ∀ x ∈ l, g x ≠ g a → c x = 0) :
    (l.map c).sum = c a := by
  induction l with
  | nil => cases ha
  | cons b l ih =>
    simp only [List.map_cons, List.nodup_cons] at hnd
    rcases List.mem_cons.mp ha with rfl | ha'
    · have hz : (l.map c).sum = 0 := by
        apply List.sum_eq_zero
        intro x hx
        obtain ⟨y, hy, rfl⟩ := List.mem_map.mp hx
        apply h0 y (List.mem_cons_of_mem _ hy)
        intro he
        exact hnd.1 (he ▸ List.mem_map_of_mem g hy)
      simp [List.sum_cons, hz]
    · have hb : c b = 0 := by
        apply h0 b (List.mem_cons_self _ _)
        intro he
        exact hnd.1 (he ▸ List.mem_map_of_mem g ha')
      simp only [List.map_cons, List.sum_cons, hb, Nat.zero_add]
      exact ih hnd.2 ha' (fun x hx hgx => h0 x (List.mem_cons_of_mem _ hx) hgx)

/-! ## Structure of the topic-view edge pass -/

/-- The edges the prerequisite pass emits for one member note. -/
def topicEdgesFor (topic : Topic) (note : TNote) : List Edge :=
  if note.prerequisites.length > 0 then
    note.prerequisites.map (fun p => ⟨p.id ++ "-" ++ note.id, p.id, note.id⟩)
  else
    [⟨topic.id ++ "-" ++ note.id, topic.id, note.id⟩]

theorem foldl_prereq_edges (note : TNote) (l : List TPrereq)
    (st : List (String × GNode) × List Edge) :
    (l.foldl (fun st p =>
      let nm := if st.1.any (fun kv => kv.1 = p.id) then st.1
                else st.1 ++ [(p.id, ⟨p.id, p.title, "note"⟩)]
      (nm, st.2 ++ [⟨p.id ++ "-" ++ note.id, p.id, note.id⟩])) st).2 =
      st.2 ++ l.map (fun p => ⟨p.id ++ "-" ++ note.id, p.id, note.id⟩) := by
  induction l generalizing st with
  | nil => simp
  | cons p l ih => simp [List.foldl_cons, ih]

theorem addPrereqEdges_edges (topic : Topic) (st : List (String × GNode) × List Edge)
    (note : TNote) :
    (addPrereqEdges topic st note).2 = st.2 ++ topicEdgesFor topic note := by
  unfold addPrereqEdges topicEdgesFor
  split
  · exact foldl_prereq_edges note note.prerequisites st
  · rfl

theorem foldl_addPrereqEdges_edges (topic : Topic) (notes : List TNote)
    (st : List (String × GNode) × List Edge) :
    (notes.foldl (addPrereqEdges topic) st).2 =
      st.2 ++ notes.flatMap (topicEdgesFor topic) := by
  induction notes generalizing st with
  | nil => simp
  | cons n l ih =>
    rw [List.foldl_cons, ih, addPrereqEdges_edges, List.flatMap_cons, List.append_assoc]

theorem topicPass_edges (topic : Topic) (notes : List TNote) :
    (topicPass topic notes).2 = notes.flatMap (topicEdgesFor topic) := by
  unfold topicPass
  rw [foldl_addPrereqEdges_edges]
  rfl

theorem topicEdgesFor_target (topic : Topic) (note : TNote) (e : Edge)
    (he : e ∈ topicEdgesFor topic note) : e.target = note.id := by
  unfold topicEdgesFor at he
  split at he
  · obtain ⟨p, -, rfl⟩ := List.mem_map.mp he
    rfl
  · rw [List.mem_singleton] at he
    subst he
    rfl

theorem topicEdgesFor_has_target (topic : Topic) (note : TNote) :
    ∃ e ∈ topicEdgesFor topic note, e.target = note.id := by
  unfold topicEdgesFor
  split
  · rename_i hl
    cases hp : note.prerequisites with
    | nil => rw [hp] at hl; simp at hl
    | cons p l =>
      exact ⟨⟨p.id ++ "-" ++ note.id, p.id, note.id⟩,
        List.mem_map_of_mem _ (List.mem_cons_self _ _), rfl⟩
  · exact ⟨_, List.mem_singleton_self _, rfl⟩

/-! ## Structure of the topic-view post-pass -/

theorem addFallbacks_prefix (topic : Topic) (ids : List String)
    (nm : List (String × GNode)) (es : List Edge) :
    ∃ tail, addFallbacks topic ids nm es = es ++ tail := by
  unfold addFallbacks
  induction nm generalizing es with
  | nil => exact ⟨[], by simp⟩
  | cons kv rest ih =>
    rw [List.foldl_cons]
    split
    · obtain ⟨tail, htail⟩ := ih (es ++ [⟨topic.id ++ "-" ++ kv.1, topic.id, kv.1⟩])
      refine ⟨[⟨topic.id ++ "-" ++ kv.1, topic.id, kv.1⟩] ++ tail, ?_⟩
      rw [htail, List.append_assoc]
    · exact ih es

theorem countP_addFallbacks_member (topic : Topic) (ids : List String)
    (nm : List (String × GNode)) (es : List Edge) (p : Edge → Bool)
    (hp : ∀ e : Edge, e.target ∉ ids → p e = false) :
    (addFallbacks topic ids nm es).countP p = es.countP p := by
  unfold addFallbacks
  induction nm generalizing es with
  | nil => rfl
  | cons kv rest ih =>
    rw [List.foldl_cons]
    split
    · rename_i hcond
      rw [ih]
      rw [List.countP_append]
      have : p ⟨topic.id ++ "-" ++ kv.1, topic.id, kv.1⟩ = false := hp _ hcond.2.1
      simp [List.countP_cons, this]
    · exact ih es

theorem countP_addFallbacks_avoid (topic : Topic) (ids : List String)
    (nm : List (String × GNode)) (es : List Edge) (k : String) (p : Edge → Bool)
    (hk : k ∉ nm.map (fun kv => kv.1))
    (hp : ∀ e : Edge, p e = true → e.target = k) :
    (addFallbacks topic ids nm es).countP p = es.countP p := by
  unfold addFallbacks
  induction nm generalizing es with
  | nil => rfl
  | cons kv rest ih =>
    simp only [List.map_cons, List.mem_cons, not_or] at hk
    rw [List.foldl_cons]
    split
    · rw [ih _ hk.2, List.countP_append]
      have hpe : p ⟨topic.id ++ "-" ++ kv.1, topic.id, kv.1⟩ = false := by
        cases hpe : p ⟨topic.id ++ "-" ++ kv.1, topic.id, kv.1⟩ with
        | false => rfl
        | true => exact absurd (hp _ hpe).symm hk.1
      simp [List.countP_cons, hpe]
    · exact ih es hk.2

theorem countP_addFallbacks_external (topic : Topic) (ids : List String)
    (nm : List (String × GNode)) (es : List Edge) (k : String)
    (hnd : (nm.map (fun kv => kv.1)).Nodup)
    (hkv : ∃ kv ∈ nm, kv.1 = k ∧ kv.2.type = "note")
    (hext : k ∉ ids) (hz : ∀ e ∈ es, e.target ≠ k) :
    (addFallbacks topic ids nm es).countP
      (fun e => e.source = topic.id ∧ e.target = k) = 1 := by
  unfold addFallbacks
  induction nm generalizing es with
  | nil => simp at hkv
  | cons kv rest ih =>
    simp only [List.map_cons, List.nodup_cons] at hnd
    obtain ⟨kv0, hkv0, hk0, hty0⟩ := hkv
    rw [List.foldl_cons]
    by_cases hkey : kv.1 = k
    · have hkv0kv : kv0 = kv := by
        rcases List.mem_cons.mp hkv0 with h | htail
        · exact h
        · exfalso
          apply hnd.1
          rw [hkey, ← hk0]
          exact List.mem_map_of_mem (fun kv => kv.1) htail
      have hty : kv.2.type = "note" := by rw [← hkv0kv]; exact hty0
      have hcond : kv.2.type = "note" ∧ kv.1 ∉ ids ∧
          ¬ (es.any (fun e => e.target = kv.1)) = true := by
        refine ⟨hty, by rw [hkey]; exact hext, ?_⟩
        intro hany
        rw [List.any_eq_true] at hany
        obtain ⟨e, he, hte⟩ := hany
        exact hz e he (hkey ▸ of_decide_eq_true hte)
      rw [if_pos hcond]
      have hrest : k ∉ rest.map (fun kv => kv.1) := by rw [← hkey]; exact hnd.1
      have havoid := countP_addFallbacks_avoid topic ids rest
        (es ++ [⟨topic.id ++ "-" ++ kv.1, topic.id, kv.1⟩]) k
        (fun e => decide (e.source = topic.id ∧ e.target = k)) hrest
        (fun e hpe => (of_decide_eq_true hpe).2)
      unfold addFallbacks at havoid
      rw [havoid, List.countP_append]
      have hz0 : es.countP (fun e => decide (e.source = topic.id ∧ e.target = k)) = 0 := by
        rw [List.countP_eq_zero]
        intro e he hpe
        exact hz e he (of_decide_eq_true hpe).2
      rw [hz0]
      simp [List.countP_cons, hkey]
    · have hkv0rest : kv0 ∈ rest := by
        rcases List.mem_cons.mp hkv0 with h | htail
        · exact absurd (h ▸ hk0) hkey
        · exact htail
      split
      · refine ih _ hnd.2 ⟨kv0, hkv0rest, hk0, hty0⟩ ?_
        intro e he
        rcases List.mem_append.mp he with he | he
        · exact hz e he
        · rw [List.mem_singleton] at he
          subst he
          simpa using hkey
      · exact ih es hnd.2 ⟨kv0, hkv0rest, hk0, hty0⟩ hz

/-! ## C1: fallback edges in the topic view -/

/-- C1 (amended): `buildTopicGraph` emits exactly one fallback edge
`T → N` for every member note `N` whose prerequisite list is empty
(rather than for every note with no prerequisites *in topic T*). -/
theorem getGraphByTopic_fallback_edge (topic : Topic) (notes : List TNote) (nn : TNote)
    (hids : (notes.map (fun n => n.id)).Nodup)
    (hmem : nn ∈ notes) (hnp : nn.prerequisites = []) :
    ((getGraphByTopic topic notes).2.countP
      (fun e => e.source = topic.id ∧ e.target = nn.id)) = 1 := by
  have hmm : nn.id ∈ notes.map (fun n => n.id) := List.mem_map_of_mem _ hmem
  have hp : ∀ e : Edge, e.target ∉ notes.map (fun n => n.id) →
      (decide (e.source = topic.id ∧ e.target = nn.id)) = false := by
    intro e he
    rw [decide_eq_false_iff_not]
    rintro ⟨-, ht⟩
    exact he (ht ▸ hmm)
  show (addFallbacks topic (notes.map (fun n => n.id)) (topicPass topic notes).1
      (topicPass topic notes).2).countP _ = 1
  rw [countP_addFallbacks_member topic (notes.map (fun n => n.id))
    (topicPass topic notes).1 (topicPass topic notes).2 _ hp]
  rw [topicPass_edges, countP_flatMap]
  rw [sum_map_eq_single notes _ (fun n => n.id) nn hids hmem ?h0]
  case h0 =>
    intro x hx hgx
    rw [List.countP_eq_zero]
    intro e he hpe
    have ht := (of_decide_eq_true hpe).2
    rw [topicEdgesFor_target topic x e he] at ht
    exact hgx ht
  simp [topicEdgesFor, hnp]

/-- Witness for C1's amended statement at a one-note topic. -/
theorem getGraphByTopic_fallback_edge_witness :
    (([(⟨"N", "n", []⟩ : TNote)]).map (fun n => n.id)).Nodup ∧
    (⟨"N", "n", []⟩ : TNote) ∈ [(⟨"N", "n", []⟩ : TNote)] ∧
    (⟨"N", "n", []⟩ : TNote).prerequisites = [] ∧
    ((getGraphByTopic ⟨"T", "t"⟩ [⟨"N", "n", []⟩]).2.countP
      (fun e => e.source = "T" ∧ e.target = "N")) = 1 :=
  ⟨by decide, by decide, by decide,
    getGraphByTopic_fallback_edge ⟨"T", "t"⟩ [⟨"N", "n", []⟩] ⟨"N", "n", []⟩
      (by decide) (by decide) (by decide)⟩

/-- C1 counterexample: member note `N` has no prerequisite in topic `T`
(its only prerequisite `P` is external to the topic: `P` is not a member
and `T` is not among `P`'s topics), yet the builder emits **zero** fallback
edges `T → N` — the fallback is keyed on having no prerequisites at all. -/
theorem getGraphByTopic_no_fallback_with_external_prereq :
    (∀ p ∈ (⟨"N", "n", [⟨"P", "p", ["U"]⟩]⟩ : TNote).prerequisites,
      "T" ∉ p.topics ∧
      p.id ∉ ([⟨"N", "n", [⟨"P", "p", ["U"]⟩]⟩] : List TNote).map (fun n => n.id)) ∧
    ((getGraphByTopic ⟨"T", "t"⟩ [⟨"N", "n", [⟨"P", "p", ["U"]⟩]⟩]).2.countP
      (fun e => e.source = "T" ∧ e.target = "N")) = 0 := by
  decide

/-! ## Node-map invariants of the topic view -/

theorem mem_mapSet (m : List (String × GNode)) (k : String) (v : GNode)
    (kv : String × GNode) (h : kv ∈ mapSet m k v) : kv ∈ m ∨ kv = (k, v) := by
  unfold mapSet at h
  split at h
  · obtain ⟨kv0, hkv0, hmap⟩ := List.mem_map.mp h
    split at hmap
    · right; exact hmap.symm
    · left; exact hmap ▸ hkv0
  · rcases List.mem_append.mp h with h | h
    · left; exact h
    · right; simpa using h

theorem any_key_iff (m : List (String × GNode)) (k : String) :
    m.any (fun kv => kv.1 = k) = true ↔ k ∈ m.map (fun kv => kv.1) := by
  rw [List.any_eq_true]
  constructor
  · rintro ⟨kv, hkv, he⟩
    exact (of_decide_eq_true he) ▸ List.mem_map_of_mem _ hkv
  · intro h
    obtain ⟨kv, hkv, he⟩ := List.mem_map.mp h
    exact ⟨kv, hkv, by simp [he]⟩

theorem keys_mapSet (m : List (String × GNode)) (k : String) (v : GNode) :
    (mapSet m k v).map (fun kv => kv.1) =
      if k ∈ m.map (fun kv => kv.1) then m.map (fun kv => kv.1)
      else m.map (fun kv => kv.1) ++ [k] := by
  unfold mapSet
  by_cases hk : m.any (fun kv => kv.1 = k) = true
  · rw [if_pos hk, if_pos ((any_key_iff m k).mp hk), List.map_map]
    apply List.map_congr_left
    intro kv _
    simp only [Function.comp]
    split
    · rename_i he; simp [he]
    · rfl
  · rw [if_neg hk, if_neg (fun hm => hk ((any_key_iff m k).mpr hm))]
    simp

theorem keys_nodup_mapSet (m : List (String × GNode)) (k : String) (v : GNode)
    (h : (m.map (fun kv => kv.1)).Nodup) : ((mapSet m k v).map (fun kv => kv.1)).Nodup := by
  rw [keys_mapSet]
  split
  · exact h
  · rename_i hk
    simp [List.nodup_append, h, hk]

theorem mem_foldl_mapSet_note {P : String × GNode → Prop} (notes : List TNote)
    (m0 : List (String × GNode)) (h0 : ∀ kv ∈ m0, P kv)
    (hstep : ∀ n : TNote, P (n.id, ⟨n.id, n.title, "note"⟩)) :
    ∀ kv ∈ notes.foldl (fun m n => mapSet m n.id ⟨n.id, n.title, "note"⟩) m0, P kv := by
  induction notes generalizing m0 with
  | nil => exact h0
  | cons n l ih =>
    rw [List.foldl_cons]
    refine ih _ ?_
    intro kv hkv
    rcases mem_mapSet _ _ _ _ hkv with h | rfl
    · exact h0 kv h
    · exact hstep n

theorem keys_nodup_foldl_mapSet (notes : List TNote) (m0 : List (String × GNode))
    (h0 : (m0.map (fun kv => kv.1)).Nodup) :
    ((notes.foldl (fun m n => mapSet m n.id ⟨n.id, n.title, "note"⟩) m0).map
      (fun kv => kv.1)).Nodup := by
  induction notes generalizing m0 with
  | nil => exact h0
  | cons n l ih =>
    rw [List.foldl_cons]
    exact ih _ (keys_nodup_mapSet _ _ _ h0)

theorem foldl_prereq_nm_inv {P : String × GNode → Prop} (note : TNote) (l : List TPrereq)
    (st : List (String × GNode) × List Edge)
    (h0 : ∀ kv ∈ st.1, P kv)
    (hp : ∀ p : TPrereq, P (p.id, ⟨p.id, p.title, "note"⟩)) :
    ∀ kv ∈ (l.foldl (fun st p =>
      let nm := if st.1.any (fun kv => kv.1 = p.id) then st.1
                else st.1 ++ [(p.id, ⟨p.id, p.title, "note"⟩)]
      (nm, st.2 ++ [⟨p.id ++ "-" ++ note.id, p.id, note.id⟩])) st).1, P kv := by
  induction l generalizing st with
  | nil => exact h0
  | cons p l ih =>
    rw [List.foldl_cons]
    refine ih _ ?_
    intro kv hkv
    simp only at hkv
    split at hkv
    · exact h0 kv hkv
    · rcases List.mem_append.mp hkv with h | h
      · exact h0 kv h
      · rw [List.mem_singleton] at h
        subst h
        exact hp p

theorem foldl_prereq_nm_keys (note : TNote) (l : List TPrereq)
    (st : List (String × GNode) × List Edge)
    (h0 : (st.1.map (fun kv => kv.1)).Nodup) :
    ((l.foldl (fun st p =>
      let nm := if st.1.any (fun kv => kv.1 = p.id) then st.1
                else st.1 ++ [(p.id, ⟨p.id, p.title, "note"⟩)]
      (nm, st.2 ++ [⟨p.id ++ "-" ++ note.id, p.id, note.id⟩])) st).1.map
        (fun kv => kv.1)).Nodup := by
  induction l generalizing st with
  | nil => exact h0
  | cons p l ih =>
    rw [List.foldl_cons]
    refine ih _ ?_
    simp only
    split
    · exact h0
    · rename_i hany
      have hnot : p.id ∉ st.1.map (fun kv => kv.1) := by
        intro hm
        exact hany ((any_key_iff st.1 p.id).mpr hm)
      simp [List.nodup_append, h0, hnot]

theorem mem_addPrereqEdges_nm {P : String × GNode → Prop} (topic : Topic)
    (st : List (String × GNode) × List Edge) (note : TNote)
    (h0 : ∀ kv ∈ st.1, P kv)
    (hp : ∀ p : TPrereq, P (p.id, ⟨p.id, p.title, "note"⟩)) :
    ∀ kv ∈ (addPrereqEdges topic st note).1, P kv := by
  unfold addPrereqEdges
  split
  · exact foldl_prereq_nm_inv note note.prerequisites st h0 hp
  · exact h0

theorem addPrereqEdges_nm_keys (topic : Topic)
    (st : List (String × GNode) × List Edge) (note : TNote)
    (h0 : (st.1.map (fun kv => kv.1)).Nodup) :
    ((addPrereqEdges topic st note).1.map (fun kv => kv.1)).Nodup := by
  unfold addPrereqEdges
  split
  · exact foldl_prereq_nm_keys note note.prerequisites st h0
  · exact h0

theorem foldl_addPrereqEdges_nm_inv {P : String × GNode → Prop} (topic : Topic)
    (notes : List TNote) (st : List (String × GNode) × List Edge)
    (h0 : ∀ kv ∈ st.1, P kv)
    (hp : ∀ p : TPrereq, P (p.id, ⟨p.id, p.title, "note"⟩)) :
    ∀ kv ∈ (notes.foldl (addPrereqEdges topic) st).1, P kv := by
  induction notes generalizing st with
  | nil => exact h0
  | cons n l ih =>
    rw [List.foldl_cons]
    exact ih _ (mem_addPrereqEdges_nm topic st n h0 hp)

theorem foldl_addPrereqEdges_nm_keys (topic : Topic) (notes : List TNote)
    (st : List (String × GNode) × List Edge)
    (h0 : (st.1.map (fun kv => kv.1)).Nodup) :
    ((notes.foldl (addPrereqEdges topic) st).1.map (fun kv => kv.1)).Nodup := by
  induction notes generalizing st with
  | nil => exact h0
  | cons n l ih =>
    rw [List.foldl_cons]
    exact ih _ (addPrereqEdges_nm_keys topic st n h0)

theorem topicPass_nm_inv (topic : Topic) (notes : List TNote) :
    ∀ kv ∈ (topicPass topic notes).1,
      kv.2.id = kv.1 ∧ (kv.1 ≠ topic.id → kv.2.type = "note") := by
  unfold topicPass
  apply foldl_addPrereqEdges_nm_inv
  · unfold topicSeedMap
    apply mem_foldl_mapSet_note
    · intro kv hkv
      rcases mem_mapSet _ _ _ _ hkv with h | rfl
      · cases h
      · exact ⟨rfl, fun h => absurd rfl h⟩
    · intro n
      exact ⟨rfl, fun _ => rfl⟩
  · intro p
    exact ⟨rfl, fun _ => rfl⟩

theorem topicPass_nm_keys_nodup (topic : Topic) (notes : List TNote) :
    ((topicPass topic notes).1.map (fun kv => kv.1)).Nodup := by
  unfold topicPass
  apply foldl_addPrereqEdges_nm_keys
  unfold topicSeedMap
  apply keys_nodup_foldl_mapSet
  exact keys_nodup_mapSet [] topic.id _ List.nodup_nil

theorem addFallbacks_covers (topic : Topic) (ids : List String)
    (nm : List (String × GNode)) (es : List Edge) (kv : String × GNode)
    (hkv : kv ∈ nm) (hty : kv.2.type = "note") (hext : kv.1 ∉ ids) :
    ∃ e ∈ addFallbacks topic ids nm es, e.target = kv.1 := by
  unfold addFallbacks
  induction nm generalizing es with
  | nil => cases hkv
  | cons h rest ih =>
    rw [List.foldl_cons]
    rcases List.mem_cons.mp hkv with rfl | htail
    · by_cases hcond : kv.2.type = "note" ∧ kv.1 ∉ ids ∧
        ¬ (es.any (fun e => e.target = kv.1)) = true
      · rw [if_pos hcond]
        obtain ⟨tail, htail⟩ := addFallbacks_prefix topic ids rest
          (es ++ [⟨topic.id ++ "-" ++ kv.1, topic.id, kv.1⟩])
        refine ⟨⟨topic.id ++ "-" ++ kv.1, topic.id, kv.1⟩, ?_, rfl⟩
        show _ ∈ addFallbacks topic ids rest (es ++ [⟨topic.id ++ "-" ++ kv.1, topic.id, kv.1⟩])
        rw [htail]
        exact List.mem_append_left _ (List.mem_append_right _ (List.mem_singleton_self _))
      · rw [if_neg hcond]
        have hany : (es.any (fun e => e.target = kv.1)) = true := by
          by_contra hno
          exact hcond ⟨hty, hext, hno⟩
        rw [List.any_eq_true] at hany
        obtain ⟨e, he, hte⟩ := hany
        obtain ⟨tail, htail⟩ := addFallbacks_prefix topic ids rest es
        refine ⟨e, ?_, of_decide_eq_true hte⟩
        show e ∈ addFallbacks topic ids rest es
        rw [htail]
        exact List.mem_append_left _ he
    · split
      · exact ih _ htail
      · exact ih _ htail

/-! ## C6: external prerequisite fallbacks in the topic view -/

/-- C6: in `buildTopicGraph`, every external prerequisite node (a `note`
node that is not a member of the topic) with zero inbound edges after the
prerequisite pass receives exactly one fallback edge from the topic node,
and consequently every node of the topic view is the topic root or has at
least one inbound edge. -/
theorem getGraphByTopic_external_fallback (topic : Topic) (notes : List TNote) :
    (∀ nd ∈ (getGraphByTopic topic notes).1,
      nd.type = "note" → nd.id ∉ notes.map (fun n => n.id) →
      (∀ e ∈ (topicPass topic notes).2, e.target ≠ nd.id) →
      ((getGraphByTopic topic notes).2.countP
        (fun e => e.source = topic.id ∧ e.target = nd.id)) = 1) ∧
    (∀ nd ∈ (getGraphByTopic topic notes).1,
      nd.id = topic.id ∨ ∃ e ∈ (getGraphByTopic topic notes).2, e.target = nd.id) := by
  have hinv := topicPass_nm_inv topic notes
  have hkeys := topicPass_nm_keys_nodup topic notes
  constructor
  · intro nd hnd hty hext hz
    obtain ⟨kv, hkv, hval⟩ := List.mem_map.mp hnd
    have hid : kv.2.id = kv.1 := (hinv kv hkv).1
    show (addFallbacks topic (notes.map (fun n => n.id)) (topicPass topic notes).1
        (topicPass topic notes).2).countP _ = 1
    exact countP_addFallbacks_external topic _ _ _ nd.id hkeys
      ⟨kv, hkv, by rw [← hid, hval], by rw [hval]; exact hty⟩ hext hz
  · intro nd hnd
    obtain ⟨kv, hkv, hval⟩ := List.mem_map.mp hnd
    have hid : kv.2.id = kv.1 := (hinv kv hkv).1
    by_cases htop : kv.1 = topic.id
    · left
      rw [← hval, hid, htop]
    · right
      by_cases hmem : kv.1 ∈ notes.map (fun n => n.id)
      · obtain ⟨n, hn, hnid⟩ := List.mem_map.mp hmem
        obtain ⟨e, he, hte⟩ := topicEdgesFor_has_target topic n
        obtain ⟨tail, htail⟩ := addFallbacks_prefix topic (notes.map (fun n => n.id))
          (topicPass topic notes).1 (topicPass topic notes).2
        refine ⟨e, ?_, ?_⟩
        · show e ∈ addFallbacks topic (notes.map (fun n => n.id))
            (topicPass topic notes).1 (topicPass topic notes).2
          rw [htail]
          apply List.mem_append_left
          rw [topicPass_edges]
          exact List.mem_flatMap.mpr ⟨n, hn, he⟩
        · rw [hte, hnid, ← hval, hid]
      · obtain ⟨e, he, hte⟩ := addFallbacks_covers topic (notes.map (fun n => n.id))
          (topicPass topic notes).1 (topicPass topic notes).2 kv hkv
          ((hinv kv hkv).2 htop) hmem
        exact ⟨e, he, by rw [hte, ← hval, hid]⟩

/-- Witness for C6: one member note `N` with external prerequisite `P`;
`P` gets exactly one fallback edge `T → P`, and every node of the view has
an inbound edge or is the topic. -/
theorem getGraphByTopic_external_fallback_witness :
    ((⟨"P", "p", "note"⟩ : GNode) ∈
      (getGraphByTopic ⟨"T", "t"⟩ [⟨"N", "n", [⟨"P", "p", ["U"]⟩]⟩]).1) ∧
    (⟨"P", "p", "note"⟩ : GNode).type = "note" ∧
    (⟨"P", "p", "note"⟩ : GNode).id ∉
      ([⟨"N", "n", [⟨"P", "p", ["U"]⟩]⟩] : List TNote).map (fun n => n.id) ∧
    (∀ e ∈ (topicPass ⟨"T", "t"⟩ [⟨"N", "n", [⟨"P", "p", ["U"]⟩]⟩]).2,
      e.target ≠ (⟨"P", "p", "note"⟩ : GNode).id) ∧
    ((getGraphByTopic ⟨"T", "t"⟩ [⟨"N", "n", [⟨"P", "p", ["U"]⟩]⟩]).2.countP
      (fun e => e.source = (⟨"T", "t"⟩ : Topic).id ∧
        e.target = (⟨"P", "p", "note"⟩ : GNode).id)) = 1 :=
  ⟨by decide, by decide, by decide, by decide,
    (getGraphByTopic_external_fallback ⟨"T", "t"⟩ [⟨"N", "n", [⟨"P", "p", ["U"]⟩]⟩]).1
      ⟨"P", "p", "note"⟩ (by decide) (by decide) (by decide) (by decide)⟩

/-! ## Per-pair structure of the whole-graph edges -/

theorem mem_prereqsInSameTopic (n : WNote) (t : String) (p : WPrereq) :
    p ∈ prereqsInSameTopic n t ↔ p ∈ validPrereqs n ∧ t ∈ p.topics := by
  unfold prereqsInSameTopic
  rw [List.mem_filter]
  constructor
  · rintro ⟨h1, h2⟩
    rw [List.any_eq_true] at h2
    obtain ⟨u, hu, he⟩ := h2
    exact ⟨h1, (of_decide_eq_true he) ▸ hu⟩
  · rintro ⟨h1, h2⟩
    exact ⟨h1, List.any_eq_true.mpr ⟨t, h2, by simp⟩⟩

theorem wEdgesFor_target (n : WNote) (t : String) (e : Edge)
    (he : e ∈ wEdgesFor n t) : e.target = compositeId n.id t := by
  simp only [wEdgesFor] at he
  split at he
  · obtain ⟨p, -, rfl⟩ := List.mem_map.mp he
    rfl
  · rw [List.mem_singleton] at he
    subst he
    rfl

theorem wEdgesFor_has_target (n : WNote) (t : String) :
    ∃ e ∈ wEdgesFor n t, e.target = compositeId n.id t := by
  simp only [wEdgesFor]
  split
  · rename_i hl
    cases hp : prereqsInSameTopic n t with
    | nil => rw [hp] at hl; simp at hl
    | cons p l =>
      exact ⟨_, List.mem_map_of_mem _ (List.mem_cons_self p l), rfl⟩
  · exact ⟨_, List.mem_singleton_self _, rfl⟩

theorem wEdgesFor_source (n : WNote) (t : String) (e : Edge)
    (he : e ∈ wEdgesFor n t) :
    e.source = t ∨ ∃ p ∈ prereqsInSameTopic n t, e.source = compositeId p.id t := by
  simp only [wEdgesFor] at he
  split at he
  · obtain ⟨p, hp, rfl⟩ := List.mem_map.mp he
    exact Or.inr ⟨p, hp, rfl⟩
  · rw [List.mem_singleton] at he
    subst he
    exact Or.inl rfl

theorem countP_key_eq_one {α : Type} (l : List α) (g : α → String) (a : α)
    (hnd : (l.map g).Nodup) (ha : a ∈ l) :
    l.countP (fun x => g x = g a) = 1 := by
  induction l with
  | nil => cases ha
  | cons b l ih =>
    simp only [List.map_cons, List.nodup_cons] at hnd
    rcases List.mem_cons.mp ha with rfl | ha'
    · rw [List.countP_cons]
      have hz : l.countP (fun x => g x = g a) = 0 := by
        rw [List.countP_eq_zero]
        intro x hx hpx
        exact hnd.1 ((of_decide_eq_true hpx) ▸ List.mem_map_of_mem g hx)
      simp [hz]
    · rw [List.countP_cons]
      have hb : (decide (g b = g a)) = false := by
        rw [decide_eq_false_iff_not]
        intro he
        exact hnd.1 (he ▸ List.mem_map_of_mem g ha')
      rw [ih hnd.2 ha']
      simp [hb]

/-- Reduce a whole-graph edge count keyed on the composite target of the
pair (n, t) to the count over that single pair's edges. -/
theorem getGraphEdges_countP_target (notes : List WNote) (n : WNote) (t : String)
    (pred : Edge → Bool)
    (htarget : ∀ e : Edge, pred e = true → e.target = compositeId n.id t)
    (hhyph : ∀ m ∈ notes, hyphenFree m.id)
    (hids : (notes.map (fun m => m.id)).Nodup)
    (hts : ∀ m ∈ notes, m.topics.Nodup)
    (hn : n ∈ notes) (ht : t ∈ n.topics) :
    (getGraphEdges notes).countP pred = (wEdgesFor n t).countP pred := by
  unfold getGraphEdges
  rw [countP_flatMap]
  rw [sum_map_eq_single notes _ (fun m => m.id) n hids hn ?h0]
  case h0 =>
    intro m hm hgm
    rw [List.countP_eq_zero]
    intro e he hpe
    obtain ⟨u, hu, heu⟩ := List.mem_flatMap.mp he
    have h1 := wEdgesFor_target m u e heu
    have h2 := htarget e hpe
    rw [h1] at h2
    exact hgm (compositeId_inj m.id u n.id t (hhyph m hm) (hhyph n hn) h2).1
  rw [countP_flatMap]
  have hndt : (n.topics.map (fun u => u)).Nodup := by
    simpa using hts n hn
  rw [sum_map_eq_single n.topics _ (fun u => u) t hndt ht ?h1]
  case h1 =>
    intro u hu hgu
    rw [List.countP_eq_zero]
    intro e he hpe
    have h1 := wEdgesFor_target n u e he
    have h2 := htarget e hpe
    rw [h1] at h2
    exact hgu (compositeId_inj n.id u n.id t (hhyph n hn) (hhyph n hn) h2).2

/-! ## C4: whole-graph per-pair edge guarantee -/

/-- C4: for every (note, topic) membership pair the composite node gets
exactly one inbound edge from each same-topic prerequisite when at least one
exists (and then no fallback edge), otherwise exactly one fallback edge from
the topic node; and no emitted node other than a topic node has zero inbound
edges. -/
theorem getGraph_per_pair_edges (topics : List Topic) (notes : List WNote) (n : WNote)
    (t : String)
    (hhyph : ∀ m ∈ notes, hyphenFree m.id)
    (hthyph : ∀ m ∈ notes, ∀ u ∈ m.topics, hyphenFree u)
    (hphyph : ∀ m ∈ notes, ∀ p ∈ validPrereqs m, hyphenFree p.id)
    (hids : (notes.map (fun m => m.id)).Nodup)
    (hts : ∀ m ∈ notes, m.topics.Nodup)
    (hps : ∀ m ∈ notes, ((validPrereqs m).map (fun p => p.id)).Nodup)
    (hn : n ∈ notes) (ht : t ∈ n.topics) :
    ((prereqsInSameTopic n t ≠ [] →
      (∀ p ∈ prereqsInSameTopic n t,
        ((getGraphFull topics notes).2.countP
          (fun e => e.source = compositeId p.id t ∧
            e.target = compositeId n.id t)) = 1) ∧
      ((getGraphFull topics notes).2.countP
        (fun e => e.source = t ∧ e.target = compositeId n.id t)) = 0) ∧
    (prereqsInSameTopic n t = [] →
      ((getGraphFull topics notes).2.countP
        (fun e => e.source = t ∧ e.target = compositeId n.id t)) = 1)) ∧
    (∀ nd ∈ (getGraphFull topics notes).1, nd.type ≠ "topic" →
      ∃ e ∈ (getGraphFull topics notes).2, e.target = nd.id) := by
  refine ⟨⟨?_, ?_⟩, ?_⟩
  · intro hne
    constructor
    · intro p hp
      have htar : ∀ e : Edge,
          (decide (e.source = compositeId p.id t ∧ e.target = compositeId n.id t)) = true →
          e.target = compositeId n.id t := by
        intro e hpe
        exact (of_decide_eq_true hpe).2
      show (getGraphEdges notes).countP _ = 1
      rw [getGraphEdges_countP_target notes n t _ htar hhyph hids hts hn ht]
      simp only [wEdgesFor]
      rw [if_pos (by cases hq : prereqsInSameTopic n t with
        | nil => exact absurd hq hne
        | cons a l => simp)]
      rw [List.countP_map]
      have hpn : p ∈ validPrereqs n := ((mem_prereqsInSameTopic n t p).mp hp).1
      have hsub : ((prereqsInSameTopic n t).map (fun q => q.id)).Nodup := by
        refine List.Sublist.nodup (List.Sublist.map _ ?_) (hps n hn)
        unfold prereqsInSameTopic
        exact List.filter_sublist _
      have hcongr : ∀ q ∈ prereqsInSameTopic n t,
          ((fun e : Edge => decide (e.source = compositeId p.id t ∧
              e.target = compositeId n.id t)) ∘
            (fun q => (⟨"prereq-" ++ compositeId q.id t ++ "-" ++ compositeId n.id t,
              compositeId q.id t, compositeId n.id t⟩ : Edge))) q = true ↔
          (decide (q.id = p.id)) = true := by
        intro q hq
        have hqv : q ∈ validPrereqs n := ((mem_prereqsInSameTopic n t q).mp hq).1
        constructor
        · intro hc
          have hc' := of_decide_eq_true hc
          exact decide_eq_true
            ((compositeId_inj q.id t p.id t (hphyph n hn q hqv) (hphyph n hn p hpn) hc'.1).1)
        · intro hc
          have hc' : q.id = p.id := of_decide_eq_true hc
          apply decide_eq_true
          refine ⟨?_, rfl⟩
          show compositeId q.id t = compositeId p.id t
          rw [hc']
      rw [List.countP_congr hcongr]
      have := countP_key_eq_one (prereqsInSameTopic n t) (fun q => q.id) p hsub hp
      simpa using this
    · have htar : ∀ e : Edge,
          (decide (e.source = t ∧ e.target = compositeId n.id t)) = true →
          e.target = compositeId n.id t := by
        intro e hpe
        exact (of_decide_eq_true hpe).2
      show (getGraphEdges notes).countP _ = 0
      rw [getGraphEdges_countP_target notes n t _ htar hhyph hids hts hn ht]
      simp only [wEdgesFor]
      rw [if_pos (by cases hq : prereqsInSameTopic n t with
        | nil => exact absurd hq hne
        | cons a l => simp)]
      rw [List.countP_eq_zero]
      intro e he hpe
      obtain ⟨q, hq, rfl⟩ := List.mem_map.mp he
      have h1 := (of_decide_eq_true hpe).1
      exact compositeId_ne_hyphenFree q.id t t (hthyph n hn t ht) h1
  · intro hempty
    have htar : ∀ e : Edge,
        (decide (e.source = t ∧ e.target = compositeId n.id t)) = true →
        e.target = compositeId n.id t := by
      intro e hpe
      exact (of_decide_eq_true hpe).2
    show (getGraphEdges notes).countP _ = 1
    rw [getGraphEdges_countP_target notes n t _ htar hhyph hids hts hn ht]
    simp only [wEdgesFor]
    rw [if_neg (by rw [hempty]; simp)]
    simp
  · intro nd hnd hty
    unfold getGraphFull getGraphNodes at hnd ⊢
    rcases List.mem_append.mp hnd with h | h
    · obtain ⟨tp, -, rfl⟩ := List.mem_map.mp h
      exact absurd rfl hty
    · obtain ⟨m, hm, hmm⟩ := List.mem_flatMap.mp h
      obtain ⟨u, hu, rfl⟩ := List.mem_map.mp hmm
      obtain ⟨e, he, hte⟩ := wEdgesFor_has_target m u
      refine ⟨e, ?_, hte⟩
      show e ∈ getGraphEdges notes
      unfold getGraphEdges
      exact List.mem_flatMap.mpr ⟨m, hm, List.mem_flatMap.mpr ⟨u, hu, he⟩⟩

/-- Witness for C4: note `N` in topic `T` with same-topic prerequisite `P`;
`P` itself has no same-topic prerequisite and gets the fallback. -/
theorem getGraph_per_pair_edges_witness :
    (∀ m ∈ [(⟨"P", "p", ["T"], []⟩ : WNote), ⟨"N", "n", ["T"], [some ⟨"P", ["T"]⟩]⟩],
      hyphenFree m.id) ∧
    (∀ m ∈ [(⟨"P", "p", ["T"], []⟩ : WNote), ⟨"N", "n", ["T"], [some ⟨"P", ["T"]⟩]⟩],
      ∀ u ∈ m.topics, hyphenFree u) ∧
    (∀ m ∈ [(⟨"P", "p", ["T"], []⟩ : WNote), ⟨"N", "n", ["T"], [some ⟨"P", ["T"]⟩]⟩],
      ∀ p ∈ validPrereqs m, hyphenFree p.id) ∧
    (([(⟨"P", "p", ["T"], []⟩ : WNote), ⟨"N", "n", ["T"], [some ⟨"P", ["T"]⟩]⟩]).map
      (fun m => m.id)).Nodup ∧
    (∀ m ∈ [(⟨"P", "p", ["T"], []⟩ : WNote), ⟨"N", "n", ["T"], [some ⟨"P", ["T"]⟩]⟩],
      m.topics.Nodup) ∧
    (∀ m ∈ [(⟨"P", "p", ["T"], []⟩ : WNote), ⟨"N", "n", ["T"], [some ⟨"P", ["T"]⟩]⟩],
      ((validPrereqs m).map (fun p => p.id)).Nodup) ∧
    (((prereqsInSameTopic (⟨"N", "n", ["T"], [some ⟨"P", ["T"]⟩]⟩ : WNote) "T" ≠ [] →
      (∀ p ∈ prereqsInSameTopic (⟨"N", "n", ["T"], [some ⟨"P", ["T"]⟩]⟩ : WNote) "T",
        ((getGraphFull [⟨"T", "t"⟩]
          [(⟨"P", "p", ["T"], []⟩ : WNote), ⟨"N", "n", ["T"], [some ⟨"P", ["T"]⟩]⟩]).2.countP
          (fun e => e.source = compositeId p.id "T" ∧
            e.target = compositeId (⟨"N", "n", ["T"], [some ⟨"P", ["T"]⟩]⟩ : WNote).id "T")) = 1) ∧
      ((getGraphFull [⟨"T", "t"⟩]
          [(⟨"P", "p", ["T"], []⟩ : WNote), ⟨"N", "n", ["T"], [some ⟨"P", ["T"]⟩]⟩]).2.countP
          (fun e => e.source = "T" ∧
            e.target = compositeId (⟨"N", "n", ["T"], [some ⟨"P", ["T"]⟩]⟩ : WNote).id "T")) = 0) ∧
    (prereqsInSameTopic (⟨"N", "n", ["T"], [some ⟨"P", ["T"]⟩]⟩ : WNote) "T" = [] →
      ((getGraphFull [⟨"T", "t"⟩]
          [(⟨"P", "p", ["T"], []⟩ : WNote), ⟨"N", "n", ["T"], [some ⟨"P", ["T"]⟩]⟩]).2.countP
          (fun e => e.source = "T" ∧
            e.target = compositeId (⟨"N", "n", ["T"], [some ⟨"P", ["T"]⟩]⟩ : WNote).id "T")) = 1)) ∧
    (∀ nd ∈ (getGraphFull [⟨"T", "t"⟩]
        [(⟨"P", "p", ["T"], []⟩ : WNote), ⟨"N", "n", ["T"], [some ⟨"P", ["T"]⟩]⟩]).1,
      nd.type ≠ "topic" →
      ∃ e ∈ (getGraphFull [⟨"T", "t"⟩]
        [(⟨"P", "p", ["T"], []⟩ : WNote), ⟨"N", "n", ["T"], [some ⟨"P", ["T"]⟩]⟩]).2,
        e.target = nd.id)) :=
  ⟨by decide, by decide, by decide, by decide, by decide, by decide,
    getGraph_per_pair_edges [⟨"T", "t"⟩]
      [(⟨"P", "p", ["T"], []⟩ : WNote), ⟨"N", "n", ["T"], [some ⟨"P", ["T"]⟩]⟩]
      ⟨"N", "n", ["T"], [some ⟨"P", ["T"]⟩]⟩ "T"
      (by decide) (by decide) (by decide) (by decide) (by decide) (by decide)
      (by decide) (by decide)⟩

/-! ## C10: topicless notes are absent from the whole graph -/

/-- C10: a note whose topic-membership list is empty contributes no node
and no edge to the whole graph — the output is the same as without it — and
no emitted edge has a source composite id derived from that note. -/
theorem getGraph_ignores_topicless_note (topics : List Topic) (l1 l2 : List WNote) (m : WNote)
    (hm : m.topics = [])
    (hstub : ∀ n ∈ l1 ++ l2, ∀ p ∈ validPrereqs n, p.id = m.id → p.topics = [])
    (hthyph : ∀ n ∈ l1 ++ l2, ∀ u ∈ n.topics, hyphenFree u)
    (hphyph : ∀ n ∈ l1 ++ l2, ∀ p ∈ validPrereqs n, hyphenFree p.id)
    (hmhyph : hyphenFree m.id) :
    getGraphFull topics (l1 ++ m :: l2) = getGraphFull topics (l1 ++ l2) ∧
    (∀ e ∈ (getGraphFull topics (l1 ++ m :: l2)).2, ∀ u : String,
      e.source ≠ compositeId m.id u) := by
  constructor
  · unfold getGraphFull getGraphNodes getGraphEdges
    rw [List.flatMap_append, List.flatMap_cons, List.flatMap_append, List.flatMap_cons, hm]
    simp
  · intro e he u
    obtain ⟨n, hn, hne⟩ := List.mem_flatMap.mp he
    obtain ⟨t, htm, hew⟩ := List.mem_flatMap.mp hne
    have hn2 : n ∈ l1 ++ l2 := by
      rcases List.mem_append.mp hn with h | h
      · exact List.mem_append_left _ h
      · rcases List.mem_cons.mp h with rfl | h
        · rw [hm] at htm
          cases htm
        · exact List.mem_append_right _ h
    rcases wEdgesFor_source n t e hew with hs | ⟨q, hq, hs⟩
    · rw [hs]
      intro hc
      exact compositeId_ne_hyphenFree m.id u t (hthyph n hn2 t htm) hc.symm
    · rw [hs]
      intro hc
      obtain ⟨hqv, hqt⟩ := (mem_prereqsInSameTopic n t q).mp hq
      have hinj := compositeId_inj q.id t m.id u (hphyph n hn2 q hqv) hmhyph hc
      have hz := hstub n hn2 q hqv hinj.1
      rw [hz] at hqt
      cases hqt

/-- Witness for C10: `M` has no topics; the whole graph with and without it
coincides and no edge leaves any composite id of `M`. -/
theorem getGraph_ignores_topicless_note_witness :
    ((⟨"M", "m", [], []⟩ : WNote).topics = []) ∧
    (∀ n ∈ [(⟨"N", "n", ["T"], [some ⟨"M", []⟩]⟩ : WNote)],
      ∀ p ∈ validPrereqs n, p.id = "M" → p.topics = []) ∧
    getGraphFull [⟨"T", "t"⟩] ([] ++ (⟨"M", "m", [], []⟩ : WNote) ::
        [⟨"N", "n", ["T"], [some ⟨"M", []⟩]⟩]) =
      getGraphFull [⟨"T", "t"⟩] ([] ++ [(⟨"N", "n", ["T"], [some ⟨"M", []⟩]⟩ : WNote)]) ∧
    (∀ e ∈ (getGraphFull [⟨"T", "t"⟩] ([] ++ (⟨"M", "m", [], []⟩ : WNote) ::
        [⟨"N", "n", ["T"], [some ⟨"M", []⟩]⟩])).2, ∀ u : String,
      e.source ≠ compositeId (⟨"M", "m", [], []⟩ : WNote).id u) :=
  ⟨by decide, by decide,
    (getGraph_ignores_topicless_note [⟨"T", "t"⟩] []
      [⟨"N", "n", ["T"], [some ⟨"M", []⟩]⟩] ⟨"M", "m", [], []⟩
      (by decide) (by decide) (by decide) (by decide) (by decide)).1,
    (getGraph_ignores_topicless_note [⟨"T", "t"⟩] []
      [⟨"N", "n", ["T"], [some ⟨"M", []⟩]⟩] ⟨"M", "m", [], []⟩
      (by decide) (by decide) (by decide) (by decide) (by decide)).2⟩

/-! ## Lemmas about node placement -/

theorem mkPosNode_id (nm : List (String × GNode)) (hnm : ∀ kv ∈ nm, kv.2.id = kv.1)
    (nodeId : String) (x y : ℚ) : (mkPosNode nm nodeId x y).id = nodeId := by
  unfold mkPosNode
  cases hf : nm.find? (fun kv => kv.1 = nodeId) with
  | none => rfl
  | some kv =>
    have h1 := List.find?_some hf
    have h2 := List.mem_of_find?_eq_some hf
    simp only
    rw [hnm kv h2, of_decide_eq_true h1]

theorem mkPosNode_x (nm : List (String × GNode)) (nodeId : String) (x y : ℚ) :
    (mkPosNode nm nodeId x y).x = x := by
  unfold mkPosNode
  cases nm.find? (fun kv => kv.1 = nodeId) <;> rfl

theorem mkPosNode_y (nm : List (String × GNode)) (nodeId : String) (x y : ℚ) :
    (mkPosNode nm nodeId x y).y = y := by
  unfold mkPosNode
  cases nm.find? (fun kv => kv.1 = nodeId) <;> rfl

theorem placeNodes_nodes_prefix (nm : List (String × GNode)) (ns ls sY : ℚ) (lv : Nat)
    (ids : List String) : ∀ (idx : Nat) (pos : List String) (out : List PosNode) (added : Nat),
    ∃ tail, (placeNodes nm ns ls sY lv ids idx (pos, out, added)).2.1 = out ++ tail := by
  induction ids with
  | nil => exact fun idx pos out added => ⟨[], by simp [placeNodes]⟩
  | cons nodeId rest ih =>
    intro idx pos out added
    rw [placeNodes]
    split
    · exact ih (idx + 1) pos out added
    · obtain ⟨tail, htail⟩ := ih (idx + 1) (nodeId :: pos)
        (out ++ [mkPosNode nm nodeId (100 + (lv : ℚ) * ls) (sY + (idx : ℚ) * ns)]) (added + 1)
      exact ⟨[mkPosNode nm nodeId (100 + (lv : ℚ) * ls) (sY + (idx : ℚ) * ns)] ++ tail,
        by rw [htail, List.append_assoc]⟩

theorem placeNodes_positioned (nm : List (String × GNode)) (ns ls sY : ℚ) (lv : Nat)
    (ids : List String) : ∀ (idx : Nat) (pos : List String) (out : List PosNode) (added : Nat)
    (x : String),
    (x ∈ (placeNodes nm ns ls sY lv ids idx (pos, out, added)).1 ↔ x ∈ pos ∨ x ∈ ids) := by
  induction ids with
  | nil =>
    intro idx pos out added x
    simp [placeNodes]
  | cons nodeId rest ih =>
    intro idx pos out added x
    rw [placeNodes]
    split
    · rename_i hmem
      rw [ih]
      constructor
      · rintro (h | h)
        · exact Or.inl h
        · exact Or.inr (List.mem_cons_of_mem _ h)
      · rintro (h | h)
        · exact Or.inl h
        · rcases List.mem_cons.mp h with rfl | h
          · exact Or.inl hmem
          · exact Or.inr h
    · rw [ih]
      simp only [List.mem_cons]
      tauto

theorem placeNodes_added_mono (nm : List (String × GNode)) (ns ls sY : ℚ) (lv : Nat)
    (ids : List String) : ∀ (idx : Nat) (pos : List String) (out : List PosNode) (added : Nat),
    added ≤ (placeNodes nm ns ls sY lv ids idx (pos, out, added)).2.2 := by
  induction ids with
  | nil => intro idx pos out added; simp [placeNodes]
  | cons nodeId rest ih =>
    intro idx pos out added
    rw [placeNodes]
    split
    · exact ih (idx + 1) pos out added
    · exact Nat.le_trans (Nat.le_succ _) (ih (idx + 1) _ _ (added + 1))

theorem placeNodes_added_pos (nm : List (String × GNode)) (ns ls sY : ℚ) (lv : Nat)
    (ids : List String) : ∀ (idx : Nat) (pos : List String) (out : List PosNode) (added : Nat),
    (∃ x ∈ ids, x ∉ pos) →
    added < (placeNodes nm ns ls sY lv ids idx (pos, out, added)).2.2 := by
  induction ids with
  | nil =>
    rintro idx pos out added ⟨x, hx, -⟩
    cases hx
  | cons nodeId rest ih =>
    rintro idx pos out added ⟨x, hx, hxp⟩
    rw [placeNodes]
    split
    · rename_i hmem
      rcases List.mem_cons.mp hx with rfl | hx
      · exact absurd hmem hxp
      · exact ih (idx + 1) pos out added ⟨x, hx, hxp⟩
    · exact Nat.lt_of_lt_of_le (Nat.lt_succ_self _) (placeNodes_added_mono _ _ _ _ _ _ _ _ _ _)

theorem placeNodes_places_fresh (nm : List (String × GNode)) (hnm : ∀ kv ∈ nm, kv.2.id = kv.1)
    (ns ls sY : ℚ) (lv : Nat) (ids : List String) :
    ∀ (idx : Nat) (pos : List String) (out : List PosNode) (added : Nat),
    ids.Nodup → (∀ x ∈ ids, x ∉ pos) →
    ∀ (i : Nat) (hi : i < ids.length),
    ∃ p ∈ (placeNodes nm ns ls sY lv ids idx (pos, out, added)).2.1,
      p.id = ids.get ⟨i, hi⟩ ∧
      p.x = 100 + (lv : ℚ) * ls ∧
      p.y = sY + ((idx : ℚ) + (i : ℚ)) * ns := by
  induction ids with
  | nil =>
    intro idx pos out added _ _ i hi
    cases hi
  | cons nodeId rest ih =>
    intro idx pos out added hnd hfr i hi
    rw [placeNodes]
    rw [if_neg (hfr nodeId (List.mem_cons_self _ _))]
    cases i with
    | zero =>
      obtain ⟨tail, htail⟩ := placeNodes_nodes_prefix nm ns ls sY lv rest (idx + 1)
        (nodeId :: pos)
        (out ++ [mkPosNode nm nodeId (100 + (lv : ℚ) * ls) (sY + (idx : ℚ) * ns)]) (added + 1)
      refine ⟨mkPosNode nm nodeId (100 + (lv : ℚ) * ls) (sY + (idx : ℚ) * ns), ?_, ?_, ?_, ?_⟩
      · rw [htail, List.append_assoc]
        exact List.mem_append_right _ (List.mem_append_left _ (List.mem_singleton_self _))
      · rw [mkPosNode_id nm hnm]
        rfl
      · exact mkPosNode_x nm _ _ _
      · rw [mkPosNode_y nm]
        push_cast
        ring
    | succ j =>
      have hnd' := (List.nodup_cons.mp hnd).2
      have hni := (List.nodup_cons.mp hnd).1
      have hfr' : ∀ x ∈ rest, x ∉ nodeId :: pos := by
        intro x hx
        rw [List.mem_cons]
        rintro (rfl | hxp)
        · exact hni hx
        · exact hfr x (List.mem_cons_of_mem _ hx) hxp
      have hj : j < rest.length := Nat.lt_of_succ_lt_succ hi
      obtain ⟨p, hp, hid, hx, hy⟩ := ih (idx + 1) (nodeId :: pos)
        (out ++ [mkPosNode nm nodeId (100 + (lv : ℚ) * ls) (sY + (idx : ℚ) * ns)]) (added + 1)
        hnd' hfr' j hj
      refine ⟨p, hp, hid, hx, ?_⟩
      rw [hy]
      push_cast
      ring

theorem placeNodes_ids_inv (nm : List (String × GNode)) (hnm : ∀ kv ∈ nm, kv.2.id = kv.1)
    (ns ls sY : ℚ) (lv : Nat) (ids : List String) :
    ∀ (idx : Nat) (pos : List String) (out : List PosNode) (added : Nat),
    (∀ x, (∃ p ∈ out, p.id = x) ↔ x ∈ pos) →
    ∀ x, (∃ p ∈ (placeNodes nm ns ls sY lv ids idx (pos, out, added)).2.1, p.id = x) ↔
      x ∈ (placeNodes nm ns ls sY lv ids idx (pos, out, added)).1 := by
  induction ids with
  | nil =>
    intro idx pos out added hinv x
    simp only [placeNodes]
    exact hinv x
  | cons nodeId rest ih =>
    intro idx pos out added hinv x
    rw [placeNodes]
    split
    · exact ih (idx + 1) pos out added hinv x
    · refine ih (idx + 1) (nodeId :: pos) _ (added + 1) ?_ x
      intro z
      constructor
      · rintro ⟨p, hp, hpz⟩
        rcases List.mem_append.mp hp with hp | hp
        · exact List.mem_cons_of_mem _ ((hinv z).mp ⟨p, hp, hpz⟩)
        · rw [List.mem_singleton] at hp
          subst hp
          rw [mkPosNode_id nm hnm] at hpz
          rw [← hpz]
          exact List.mem_cons_self _ _
      · intro hz
        rcases List.mem_cons.mp hz with h | hz
        · refine ⟨mkPosNode nm nodeId (100 + (lv : ℚ) * ls) (sY + (idx : ℚ) * ns),
            List.mem_append_right _ (List.mem_singleton_self _), ?_⟩
          rw [mkPosNode_id nm hnm, h]
        · obtain ⟨p, hp, hpz⟩ := (hinv z).mpr hz
          exact ⟨p, List.mem_append_left _ hp, hpz⟩

/-! ## Level grouping -/

theorem mem_jsUniq {α : Type} [DecidableEq α] (l : List α) (x : α) :
    x ∈ jsUniq l ↔ x ∈ l := by
  unfold jsUniq
  rw [mem_foldl_pushUnique]
  simp

theorem nodup_jsUniq {α : Type} [DecidableEq α] (l : List α) : (jsUniq l).Nodup :=
  nodup_foldl_pushUnique l [] List.nodup_nil

theorem pushUnique_eq_of_mem {α : Type} [DecidableEq α] (acc : List α) (x : α)
    (h : x ∈ acc) : pushUnique acc x = acc := by
  simp [pushUnique, h]

theorem pushUnique_eq_append {α : Type} [DecidableEq α] (acc : List α) (x : α)
    (h : x ∉ acc) : pushUnique acc x = acc ++ [x] := by
  simp [pushUnique, h]

theorem foldl_pushUnique_prefix {α : Type} [DecidableEq α] (l : List α) :
    ∀ acc : List α, ∃ tail, l.foldl pushUnique acc = acc ++ tail := by
  induction l with
  | nil => exact fun acc => ⟨[], by simp⟩
  | cons x l ih =>
    intro acc
    rw [List.foldl_cons]
    by_cases hx : x ∈ acc
    · rw [pushUnique_eq_of_mem acc x hx]
      exact ih acc
    · rw [pushUnique_eq_append acc x hx]
      obtain ⟨tail, htail⟩ := ih (acc ++ [x])
      exact ⟨[x] ++ tail, by rw [htail, List.append_assoc]⟩

theorem jsUniq_cons_head {α : Type} [DecidableEq α] (x : α) (l : List α) :
    ∃ tail, jsUniq (x :: l) = x :: tail := by
  have h1 : jsUniq (x :: l) = l.foldl pushUnique [x] := by
    unfold jsUniq
    rw [List.foldl_cons, pushUnique_eq_append [] x (by simp)]
    rfl
  rw [h1]
  obtain ⟨tail, htail⟩ := foldl_pushUnique_prefix l [x]
  exact ⟨tail, by rw [htail]; rfl⟩

theorem jsUniq_append_singleton {α : Type} [DecidableEq α] (l : List α) (x : α) :
    jsUniq (l ++ [x]) = if x ∈ l then jsUniq l else jsUniq l ++ [x] := by
  have h1 : jsUniq (l ++ [x]) = pushUnique (jsUniq l) x := by
    unfold jsUniq
    rw [List.foldl_append, List.foldl_cons, List.foldl_nil]
  rw [h1]
  by_cases hx : x ∈ l
  · rw [pushUnique_eq_of_mem _ _ ((mem_jsUniq l x).mpr hx), if_pos hx]
  · rw [pushUnique_eq_append _ _ (fun hc => hx ((mem_jsUniq l x).mp hc)), if_neg hx]

/-- The set of levels of a BFS tree, in first-occurrence order. -/
def uniqLevels (tn : List (String × Nat)) : List Nat :=
  jsUniq (tn.map (fun p => p.2))

theorem levelGroups_append_singleton (tn : List (String × Nat)) (p : String × Nat) :
    levelGroups (tn ++ [p]) =
      if (levelGroups tn).any (fun g => g.1 = p.2) then
        (levelGroups tn).map (fun g => if g.1 = p.2 then (g.1, g.2 ++ [p.1]) else g)
      else levelGroups tn ++ [(p.2, [p.1])] := by
  unfold levelGroups
  rw [List.foldl_append, List.foldl_cons, List.foldl_nil]

theorem levelGroups_eq (tn : List (String × Nat)) :
    levelGroups tn = (uniqLevels tn).map
      (fun d => (d, (tn.filter (fun q => q.2 = d)).map (fun q => q.1))) := by
  induction tn using List.reverseRecOn with
  | nil => rfl
  | append_singleton tn p ih =>
    rw [levelGroups_append_singleton, ih]
    have hany : ((uniqLevels tn).map
        (fun d => (d, (tn.filter (fun q => q.2 = d)).map (fun q => q.1)))).any
          (fun g => g.1 = p.2) = (decide (p.2 ∈ tn.map (fun q => q.2))) := by
      cases hd : decide (p.2 ∈ tn.map (fun q => q.2)) with
      | true =>
        rw [List.any_eq_true]
        refine ⟨(p.2, (tn.filter (fun q => q.2 = p.2)).map (fun q => q.1)), ?_, by simp⟩
        exact List.mem_map_of_mem _ ((mem_jsUniq _ _).mpr (of_decide_eq_true hd))
      | false =>
        rw [List.any_eq_false]
        rintro g hg
        obtain ⟨d, hd2, rfl⟩ := List.mem_map.mp hg
        simp only [decide_eq_true_eq]
        intro he
        rw [he] at hd2
        have hpm : p.2 ∈ tn.map (fun q => q.2) := (mem_jsUniq _ _).mp hd2
        rw [decide_eq_true hpm] at hd
        cases hd
    have hlev : uniqLevels (tn ++ [p]) =
        if p.2 ∈ tn.map (fun q => q.2) then uniqLevels tn else uniqLevels tn ++ [p.2] := by
      unfold uniqLevels
      rw [List.map_append]
      exact jsUniq_append_singleton _ _
    by_cases hmem : p.2 ∈ tn.map (fun q => q.2)
    · rw [hany, if_pos (by rw [decide_eq_true hmem])]
      rw [hlev, if_pos hmem, List.map_map]
      apply List.map_congr_left
      intro d hd
      simp only [Function.comp]
      by_cases hdp : d = p.2
      · rw [if_pos (by rw [hdp]), Prod.mk.injEq]
        refine ⟨by rw [hdp], ?_⟩
        rw [List.filter_append]
        rw [show List.filter (fun q => decide (q.2 = d)) [p] = [p] from by
          simp [List.filter_cons, hdp]]
        rw [List.map_append]
        rfl
      · rw [if_neg (by simpa using hdp), Prod.mk.injEq]
        refine ⟨rfl, ?_⟩
        rw [List.filter_append]
        rw [show List.filter (fun q => decide (q.2 = d)) [p] = [] from by
          simp only [List.filter_cons, List.filter_nil]
          rw [if_neg (by simp; intro hc; exact absurd hc.symm hdp)]]
        simp
    · rw [hany, if_neg (by rw [decide_eq_false hmem]; simp)]
      rw [hlev, if_neg hmem, List.map_append]
      congr 1
      · apply List.map_congr_left
        intro d hd
        have hdp : ¬ (p.2 = d) := by
          intro he
          exact hmem (he ▸ (mem_jsUniq _ _).mp hd)
        rw [Prod.mk.injEq]
        refine ⟨rfl, ?_⟩
        rw [List.filter_append]
        rw [show List.filter (fun q => decide (q.2 = d)) [p] = [] from by
          simp only [List.filter_cons, List.filter_nil]
          rw [if_neg (by simpa using hdp)]]
        simp
      · have hX : ((tn ++ [p]).filter (fun q => decide (q.2 = p.2))).map (fun q => q.1) =
            [p.1] := by
          rw [List.filter_append]
          rw [show List.filter (fun q => decide (q.2 = p.2)) tn = [] from by
            rw [List.filter_eq_nil_iff]
            intro q hq
            simp only [decide_eq_true_eq]
            intro he
            exact hmem (he ▸ List.mem_map_of_mem _ hq)]
          rw [show List.filter (fun q => decide (q.2 = p.2)) [p] = [p] from by
            simp [List.filter_cons]]
          rfl
        simp only [List.map_cons, List.map_nil]
        rw [hX]

/-! ## Per-tree placement -/

theorem mem_levelGroups (tn : List (String × Nat)) (d : Nat) (g : List String)
    (h : (d, g) ∈ levelGroups tn) :
    g = (tn.filter (fun q => q.2 = d)).map (fun q => q.1) ∧ d ∈ tn.map (fun q => q.2) := by
  rw [levelGroups_eq] at h
  obtain ⟨d0, hd0, he⟩ := List.mem_map.mp h
  have h1 : d0 = d := congrArg Prod.fst he
  subst h1
  exact ⟨(congrArg Prod.snd he).symm, (mem_jsUniq _ _).mp hd0⟩

theorem mem_group_key (tn : List (String × Nat)) (d : Nat) (x : String)
    (hx : x ∈ (tn.filter (fun q => q.2 = d)).map (fun q => q.1)) : (x, d) ∈ tn := by
  obtain ⟨q, hq, rfl⟩ := List.mem_map.mp hx
  obtain ⟨hq1, hq2⟩ := List.mem_filter.mp hq
  have hq2' : q.2 = d := of_decide_eq_true hq2
  have heq : (q.1, d) = q := by rw [← hq2']
  rw [heq]
  exact hq1

theorem key_level_unique (tn : List (String × Nat))
    (hnd : (tn.map (fun q => q.1)).Nodup) (x : String) (d1 d2 : Nat)
    (h1 : (x, d1) ∈ tn) (h2 : (x, d2) ∈ tn) : d1 = d2 := by
  have he := List.inj_on_of_nodup_map hnd h1 h2 rfl
  exact congrArg Prod.snd he

theorem fold_place_nodes_prefix (nm : List (String × GNode)) (ns ls tsY H : ℚ)
    (gs : List (Nat × List String)) :
    ∀ acc : List String × List PosNode × Nat,
    ∃ tail, (gs.foldl (fun acc g1 =>
      placeNodes nm ns ls (tsY + (H - ((g1.2.length : ℚ) - 1) * ns) / 2) g1.1 g1.2 0 acc)
      acc).2.1 = acc.2.1 ++ tail := by
  induction gs with
  | nil => exact fun acc => ⟨[], by simp⟩
  | cons g0 rest ih =>
    intro acc
    rw [List.foldl_cons]
    obtain ⟨pos, out, added⟩ := acc
    obtain ⟨t1, ht1⟩ := placeNodes_nodes_prefix nm ns ls
      (tsY + (H - ((g0.2.length : ℚ) - 1) * ns) / 2) g0.1 g0.2 0 pos out added
    obtain ⟨t2, ht2⟩ := ih (placeNodes nm ns ls
      (tsY + (H - ((g0.2.length : ℚ) - 1) * ns) / 2) g0.1 g0.2 0 (pos, out, added))
    refine ⟨t1 ++ t2, ?_⟩
    rw [ht2, ht1, List.append_assoc]

theorem fold_place_positioned (nm : List (String × GNode)) (ns ls tsY H : ℚ)
    (gs : List (Nat × List String)) :
    ∀ (acc : List String × List PosNode × Nat) (x : String),
    (x ∈ (gs.foldl (fun acc g1 =>
      placeNodes nm ns ls (tsY + (H - ((g1.2.length : ℚ) - 1) * ns) / 2) g1.1 g1.2 0 acc)
      acc).1 ↔ x ∈ acc.1 ∨ ∃ g1 ∈ gs, x ∈ g1.2) := by
  induction gs with
  | nil =>
    intro acc x
    simp
  | cons g0 rest ih =>
    intro acc x
    rw [List.foldl_cons]
    obtain ⟨pos, out, added⟩ := acc
    rw [ih (placeNodes nm ns ls
      (tsY + (H - ((g0.2.length : ℚ) - 1) * ns) / 2) g0.1 g0.2 0 (pos, out, added)) x]
    rw [placeNodes_positioned]
    constructor
    · rintro ((h | h) | ⟨g1, hg1, hx⟩)
      · exact Or.inl h
      · exact Or.inr ⟨g0, List.mem_cons_self _ _, h⟩
      · exact Or.inr ⟨g1, List.mem_cons_of_mem _ hg1, hx⟩
    · rintro (h | ⟨g1, hg1, hx⟩)
      · exact Or.inl (Or.inl h)
      · rcases List.mem_cons.mp hg1 with rfl | hg1
        · exact Or.inl (Or.inr hx)
        · exact Or.inr ⟨g1, hg1, hx⟩

theorem fold_place_added_mono (nm : List (String × GNode)) (ns ls tsY H : ℚ)
    (gs : List (Nat × List String)) :
    ∀ acc : List String × List PosNode × Nat,
    acc.2.2 ≤ (gs.foldl (fun acc g1 =>
      placeNodes nm ns ls (tsY + (H - ((g1.2.length : ℚ) - 1) * ns) / 2) g1.1 g1.2 0 acc)
      acc).2.2 := by
  induction gs with
  | nil => intro acc; simp
  | cons g0 rest ih =>
    intro acc
    rw [List.foldl_cons]
    obtain ⟨pos, out, added⟩ := acc
    exact Nat.le_trans (placeNodes_added_mono nm ns ls _ g0.1 g0.2 0 pos out added)
      (ih (placeNodes nm ns ls _ g0.1 g0.2 0 (pos, out, added)))

theorem fold_place_ids_inv (nm : List (String × GNode)) (hnm : ∀ kv ∈ nm, kv.2.id = kv.1)
    (ns ls tsY H : ℚ) (gs : List (Nat × List String)) :
    ∀ acc : List String × List PosNode × Nat,
    (∀ x, (∃ p ∈ acc.2.1, p.id = x) ↔ x ∈ acc.1) →
    ∀ x, (∃ p ∈ (gs.foldl (fun acc g1 =>
      placeNodes nm ns ls (tsY + (H - ((g1.2.length : ℚ) - 1) * ns) / 2) g1.1 g1.2 0 acc)
      acc).2.1, p.id = x) ↔
      x ∈ (gs.foldl (fun acc g1 =>
      placeNodes nm ns ls (tsY + (H - ((g1.2.length : ℚ) - 1) * ns) / 2) g1.1 g1.2 0 acc)
      acc).1 := by
  induction gs with
  | nil => intro acc h x; exact h x
  | cons g0 rest ih =>
    intro acc h x
    rw [List.foldl_cons]
    obtain ⟨pos, out, added⟩ := acc
    exact ih (placeNodes nm ns ls _ g0.1 g0.2 0 (pos, out, added))
      (placeNodes_ids_inv nm hnm ns ls _ g0.1 g0.2 0 pos out added h) x

theorem fold_place_formulas (nm : List (String × GNode)) (hnm : ∀ kv ∈ nm, kv.2.id = kv.1)
    (ns ls tsY H : ℚ) (gs : List (Nat × List String)) :
    ∀ acc : List String × List PosNode × Nat,
    (∀ g1 ∈ gs, g1.2.Nodup) →
    (∀ g1 ∈ gs, ∀ x ∈ g1.2, x ∉ acc.1) →
    List.Pairwise (fun g1 g2 => ∀ x ∈ g1.2, x ∉ g2.2) gs →
    ∀ (d : Nat) (g : List String), (d, g) ∈ gs → ∀ (i : Nat) (hi : i < g.length),
    ∃ p ∈ (gs.foldl (fun acc g1 =>
      placeNodes nm ns ls (tsY + (H - ((g1.2.length : ℚ) - 1) * ns) / 2) g1.1 g1.2 0 acc)
      acc).2.1,
      p.id = g.get ⟨i, hi⟩ ∧ p.x = 100 + (d : ℚ) * ls ∧
      p.y = tsY + (H - ((g.length : ℚ) - 1) * ns) / 2 + (i : ℚ) * ns := by
  induction gs with
  | nil =>
    intro acc _ _ _ d g hg
    cases hg
  | cons g0 rest ih =>
    intro acc hnod hfr hpw d g hg i hi
    rw [List.foldl_cons]
    obtain ⟨pos, out, added⟩ := acc
    rcases List.mem_cons.mp hg with he | hg
    · have hg0 : g0 = (d, g) := he.symm
      subst hg0
      obtain ⟨p, hp, hid, hx, hy⟩ := placeNodes_places_fresh nm hnm ns ls
        (tsY + (H - (((d, g).2.length : ℚ) - 1) * ns) / 2) d g 0 pos out added
        (hnod (d, g) (List.mem_cons_self _ _))
        (fun x hx => hfr (d, g) (List.mem_cons_self _ _) x hx) i hi
      obtain ⟨tail, htail⟩ := fold_place_nodes_prefix nm ns ls tsY H rest
        (placeNodes nm ns ls (tsY + (H - (((d, g).2.length : ℚ) - 1) * ns) / 2) d g 0
          (pos, out, added))
      refine ⟨p, ?_, hid, hx, ?_⟩
      · rw [htail]
        exact List.mem_append_left _ hp
      · rw [hy]
        push_cast
        ring
    · have hpw' := List.pairwise_cons.mp hpw
      refine ih (placeNodes nm ns ls
        (tsY + (H - ((g0.2.length : ℚ) - 1) * ns) / 2) g0.1 g0.2 0 (pos, out, added))
        (fun g1 hg1 => hnod g1 (List.mem_cons_of_mem _ hg1)) ?_ hpw'.2 d g hg i hi
      intro g1 hg1 x hx
      rw [placeNodes_positioned]
      rintro (h | h)
      · exact hfr g1 (List.mem_cons_of_mem _ hg1) x hx h
      · exact hpw'.1 g1 hg1 x h hx

/-! ## C7: tree layout formulas -/

/-- C7: for every tree laid out by the layout engine (one root's BFS
result, placed while no node of the tree is already positioned), the tree
height is `max(nodeSpacing * maxNodesAtAnyLevel, nodeSpacing)`; a node at
depth `d` with index `i` in its level group of size `count` is placed at
`x = 100 + levelSpacing * d` and
`y = treeTop + (treeHeight - (count-1) * nodeSpacing)/2 + i * nodeSpacing`;
and the vertical cursor advances by `treeHeight + 80` exactly when the tree
placed at least one node. -/
theorem placeTree_layout_formulas (nm : List (String × GNode)) (ns ls : ℚ)
    (st : LayoutSt) (tn : List (String × Nat))
    (hnm : ∀ kv ∈ nm, kv.2.id = kv.1)
    (hkeys : (tn.map (fun p => p.1)).Nodup)
    (hfresh : ∀ p ∈ tn, p.1 ∉ st.positioned) :
    (∀ (d : Nat) (g : List String), (d, g) ∈ levelGroups tn →
      ∀ (i : Nat) (hi : i < g.length),
      ∃ p ∈ (placeTree nm ns ls st tn).nodes,
        p.id = g.get ⟨i, hi⟩ ∧
        p.x = 100 + (d : ℚ) * ls ∧
        p.y = st.currentY + (max ((maxNodesInLevel (levelGroups tn) : ℚ) * ns) ns -
          ((g.length : ℚ) - 1) * ns) / 2 + (i : ℚ) * ns) ∧
    (placeTree nm ns ls st tn).currentY =
      (if tn = [] then st.currentY
       else st.currentY + max ((maxNodesInLevel (levelGroups tn) : ℚ) * ns) ns + 80) := by
  have hgnod : ∀ g1 ∈ levelGroups tn, g1.2.Nodup := by
    intro g1 hg1
    obtain ⟨hg, -⟩ := mem_levelGroups tn g1.1 g1.2 hg1
    rw [hg]
    exact List.Sublist.nodup (List.Sublist.map _ (List.filter_sublist tn)) hkeys
  have hgfr : ∀ g1 ∈ levelGroups tn, ∀ x ∈ g1.2, x ∉ st.positioned := by
    intro g1 hg1 x hx
    obtain ⟨hg, -⟩ := mem_levelGroups tn g1.1 g1.2 hg1
    rw [hg] at hx
    exact hfresh (x, g1.1) (mem_group_key tn g1.1 x hx)
  have hpw : List.Pairwise (fun g1 g2 => ∀ x ∈ g1.2, x ∉ g2.2) (levelGroups tn) := by
    rw [levelGroups_eq, List.pairwise_map]
    have hnd := nodup_jsUniq (tn.map (fun p => p.2))
    rw [show jsUniq (tn.map (fun p => p.2)) = uniqLevels tn from rfl] at hnd
    refine List.Pairwise.imp ?_ hnd
    intro d1 d2 hne x hx1 hx2
    exact hne (key_level_unique tn hkeys x d1 d2 (mem_group_key tn d1 x hx1)
      (mem_group_key tn d2 x hx2))
  constructor
  · intro d g hg i hi
    have hnodes : (placeTree nm ns ls st tn).nodes =
        ((levelGroups tn).foldl (fun acc g1 =>
          placeNodes nm ns ls (st.currentY +
            (max ((maxNodesInLevel (levelGroups tn) : ℚ) * ns) ns -
              ((g1.2.length : ℚ) - 1) * ns) / 2) g1.1 g1.2 0 acc)
          (st.positioned, st.nodes, 0)).2.1 := rfl
    rw [hnodes]
    exact fold_place_formulas nm hnm ns ls st.currentY
      (max ((maxNodesInLevel (levelGroups tn) : ℚ) * ns) ns) (levelGroups tn)
      (st.positioned, st.nodes, 0) hgnod hgfr hpw d g hg i hi
  · cases tn with
    | nil =>
      rw [if_pos rfl]
      rfl
    | cons p tl =>
      rw [if_neg (by simp)]
      have hcur : (placeTree nm ns ls st (p :: tl)).currentY =
          (if 0 < ((levelGroups (p :: tl)).foldl (fun acc g1 =>
            placeNodes nm ns ls (st.currentY +
              (max ((maxNodesInLevel (levelGroups (p :: tl)) : ℚ) * ns) ns -
                ((g1.2.length : ℚ) - 1) * ns) / 2) g1.1 g1.2 0 acc)
            (st.positioned, st.nodes, 0)).2.2 then
          st.currentY + max ((maxNodesInLevel (levelGroups (p :: tl)) : ℚ) * ns) ns + 80
          else st.currentY) := rfl
      rw [hcur]
      split
      · rfl
      · rename_i hneg
        exfalso
        apply hneg
        set H := max ((maxNodesInLevel (levelGroups (p :: tl)) : ℚ) * ns) ns with hH
        obtain ⟨tl2, hul⟩ := jsUniq_cons_head p.2 (tl.map (fun q => q.2))
        have hlev : uniqLevels (p :: tl) = p.2 :: tl2 := by
          unfold uniqLevels
          rw [List.map_cons]
          exact hul
        have hlg : levelGroups (p :: tl) =
            (p.2, ((p :: tl).filter (fun q => q.2 = p.2)).map (fun q => q.1)) ::
              tl2.map (fun d => (d, ((p :: tl).filter (fun q => q.2 = d)).map
                (fun q => q.1))) := by
          rw [levelGroups_eq, hlev, List.map_cons]
        rw [hlg, List.foldl_cons]
        have hp1 : p.1 ∈ ((p :: tl).filter (fun q => q.2 = p.2)).map (fun q => q.1) := by
          apply List.mem_map_of_mem
          apply List.mem_filter.mpr
          exact ⟨List.mem_cons_self _ _, by simp⟩
        have hstep := placeNodes_added_pos nm ns ls
          (st.currentY + (H -
            (((((p :: tl).filter (fun q => q.2 = p.2)).map (fun q => q.1)).length : ℚ) - 1)
              * ns) / 2)
          p.2 (((p :: tl).filter (fun q => q.2 = p.2)).map (fun q => q.1)) 0
          st.positioned st.nodes 0 ⟨p.1, hp1, hfresh p (List.mem_cons_self _ _)⟩
        exact Nat.lt_of_lt_of_le hstep (fold_place_added_mono nm ns ls st.currentY H
          (tl2.map (fun d => (d, ((p :: tl).filter (fun q => q.2 = d)).map (fun q => q.1))))
          (placeNodes nm ns ls
            (st.currentY + (H -
              (((((p :: tl).filter (fun q => q.2 = p.2)).map (fun q => q.1)).length : ℚ) - 1)
                * ns) / 2)
            p.2 (((p :: tl).filter (fun q => q.2 = p.2)).map (fun q => q.1)) 0
            (st.positioned, st.nodes, 0)))

/-! ## BFS reachability -/

theorem bfs_nil (edges : List Edge) (visited : List String) (acc : List (String × Nat)) :
    bfs edges [] visited acc = acc := by
  rw [bfs]

theorem bfs_cons_mem (edges : List Edge) (id : String) (level : Nat)
    (rest : List (String × Nat)) (visited : List String) (acc : List (String × Nat))
    (h : id ∈ visited) :
    bfs edges ((id, level) :: rest) visited acc = bfs edges rest visited acc := by
  rw [bfs, if_pos h]

theorem bfs_cons_new (edges : List Edge) (id : String) (level : Nat)
    (rest : List (String × Nat)) (visited : List String) (acc : List (String × Nat))
    (h : id ∉ visited) :
    bfs edges ((id, level) :: rest) visited acc =
      bfs edges (rest ++ ((childrenOf edges id).filter (fun c => c ∉ id :: visited)).map
        (fun c => (c, level + 1))) (id :: visited) (acc ++ [(id, level)]) := by
  rw [bfs, if_neg h]

theorem bfs_acc_prefix (edges : List Edge) :
    ∀ (queue : List (String × Nat)) (visited : List String) (acc : List (String × Nat)),
    ∃ tail, bfs edges queue visited acc = acc ++ tail := by
  intro queue visited acc
  induction queue, visited, acc using bfs.induct edges with
  | case1 visited acc =>
    exact ⟨[], by rw [bfs_nil]; simp⟩
  | case2 visited acc id level rest hvis ih =>
    rw [bfs_cons_mem edges id level rest visited acc hvis]
    exact ih
  | case3 visited acc id level rest hvis children pushes ih =>
    rw [bfs_cons_new edges id level rest visited acc hvis]
    obtain ⟨tail, htail⟩ := ih
    exact ⟨[(id, level)] ++ tail, by rw [htail, List.append_assoc]⟩

theorem bfs_sound (edges : List Edge) (root : String) :
    ∀ (queue : List (String × Nat)) (visited : List String) (acc : List (String × Nat)),
    (∀ q ∈ queue, Reach edges root q.1) →
    (∀ x ∈ acc, Reach edges root x.1) →
    ∀ x ∈ bfs edges queue visited acc, Reach edges root x.1 := by
  intro queue visited acc
  induction queue, visited, acc using bfs.induct edges with
  | case1 visited acc =>
    intro _ hacc x hx
    rw [bfs_nil] at hx
    exact hacc x hx
  | case2 visited acc id level rest hvis ih =>
    intro hq hacc x hx
    rw [bfs_cons_mem edges id level rest visited acc hvis] at hx
    exact ih (fun q hq2 => hq q (List.mem_cons_of_mem _ hq2)) hacc x hx
  | case3 visited acc id level rest hvis children pushes ih =>
    intro hq hacc x hx
    rw [bfs_cons_new edges id level rest visited acc hvis] at hx
    refine ih ?_ ?_ x hx
    · intro q hq2
      rcases List.mem_append.mp hq2 with h | h
      · exact hq q (List.mem_cons_of_mem _ h)
      · obtain ⟨c, hc, rfl⟩ := List.mem_map.mp h
        exact Reach.step (hq (id, level) (List.mem_cons_self _ _))
          (List.mem_of_mem_filter hc)
    · intro y hy
      rcases List.mem_append.mp hy with h | h
      · exact hacc y h
      · rw [List.mem_singleton] at h
        subst h
        exact hq (id, level) (List.mem_cons_self _ _)

theorem bfs_closed (edges : List Edge) :
    ∀ (queue : List (String × Nat)) (visited : List String) (acc : List (String × Nat)),
    (∀ v ∈ visited, v ∈ acc.map (fun p => p.1)) →
    (∀ q ∈ queue, q.1 ∈ (bfs edges queue visited acc).map (fun p => p.1)) ∧
    (∀ x, x ∈ (bfs edges queue visited acc).map (fun p => p.1) →
      x ∉ acc.map (fun p => p.1) →
      ∀ c ∈ childrenOf edges x, c ∈ (bfs edges queue visited acc).map (fun p => p.1)) := by
  intro queue visited acc
  induction queue, visited, acc using bfs.induct edges with
  | case1 visited acc =>
    intro _
    rw [bfs_nil]
    constructor
    · rintro q hq
      cases hq
    · intro x hx hnx
      exact absurd hx hnx
  | case2 visited acc id level rest hvis ih =>
    intro hv
    rw [bfs_cons_mem edges id level rest visited acc hvis]
    obtain ⟨ih1, ih2⟩ := ih hv
    refine ⟨?_, ih2⟩
    intro q hq
    rcases List.mem_cons.mp hq with heq | hq
    · obtain ⟨tail, htail⟩ := bfs_acc_prefix edges rest visited acc
      rw [htail, List.map_append]
      rw [heq]
      exact List.mem_append_left _ (hv id hvis)
    · exact ih1 q hq
  | case3 visited acc id level rest hvis children pushes ih =>
    intro hv
    rw [bfs_cons_new edges id level rest visited acc hvis]
    have hv2 : ∀ v ∈ id :: visited, v ∈ (acc ++ [(id, level)]).map (fun p => p.1) := by
      intro v hvv
      rw [List.map_append]
      rcases List.mem_cons.mp hvv with rfl | hvv
      · exact List.mem_append_right _ (by simp)
      · exact List.mem_append_left _ (hv v hvv)
    obtain ⟨ih1, ih2⟩ := ih hv2
    have hidmem : id ∈ (bfs edges
        (rest ++ ((childrenOf edges id).filter (fun c => c ∉ id :: visited)).map
          (fun c => (c, level + 1)))
        (id :: visited) (acc ++ [(id, level)])).map (fun p => p.1) := by
      obtain ⟨tail, htail⟩ := bfs_acc_prefix edges
        (rest ++ ((childrenOf edges id).filter (fun c => c ∉ id :: visited)).map
          (fun c => (c, level + 1))) (id :: visited) (acc ++ [(id, level)])
      rw [htail, List.map_append, List.map_append]
      exact List.mem_append_left _ (List.mem_append_right _ (by simp))
    constructor
    · intro q hq
      rcases List.mem_cons.mp hq with heq | hq
      · rw [heq]
        exact hidmem
      · exact ih1 q (List.mem_append_left _ hq)
    · intro x hx hnx c hc
      by_cases hxid : x = id
      · subst hxid
        by_cases hcv : c ∈ x :: visited
        · rcases List.mem_cons.mp hcv with rfl | hcv
          · exact hidmem
          · obtain ⟨tail, htail⟩ := bfs_acc_prefix edges
              (rest ++ ((childrenOf edges x).filter (fun c => c ∉ x :: visited)).map
                (fun c => (c, level + 1))) (x :: visited) (acc ++ [(x, level)])
            rw [htail, List.map_append, List.map_append]
            exact List.mem_append_left _ (List.mem_append_left _ (hv c hcv))
        · refine ih1 (c, level + 1) (List.mem_append_right _ ?_)
          apply List.mem_map_of_mem
          apply List.mem_filter.mpr
          exact ⟨hc, decide_eq_true hcv⟩
      · have hnx2 : x ∉ (acc ++ [(id, level)]).map (fun p => p.1) := by
          rw [List.map_append]
          intro hmm
          rcases List.mem_append.mp hmm with h | h
          · exact hnx h
          · simp at h
            exact hxid h
        exact ih2 x hx hnx2 c hc

theorem bfs_keys_nodup (edges : List Edge) :
    ∀ (queue : List (String × Nat)) (visited : List String) (acc : List (String × Nat)),
    (∀ x ∈ acc.map (fun p => p.1), x ∈ visited) →
    (acc.map (fun p => p.1)).Nodup →
    ((bfs edges queue visited acc).map (fun p => p.1)).Nodup := by
  intro queue visited acc
  induction queue, visited, acc using bfs.induct edges with
  | case1 visited acc =>
    intro _ hnd
    rw [bfs_nil]
    exact hnd
  | case2 visited acc id level rest hvis ih =>
    intro hsub hnd
    rw [bfs_cons_mem edges id level rest visited acc hvis]
    exact ih hsub hnd
  | case3 visited acc id level rest hvis children pushes ih =>
    intro hsub hnd
    rw [bfs_cons_new edges id level rest visited acc hvis]
    refine ih ?_ ?_
    · intro x hx
      rw [List.map_append] at hx
      rcases List.mem_append.mp hx with h | h
      · exact List.mem_cons_of_mem _ (hsub x h)
      · simp at h
        rw [h]
        exact List.mem_cons_self _ _
    · rw [List.map_append]
      refine List.Nodup.append hnd (by simp) ?_
      intro a ha hb
      simp at hb
      subst hb
      exact hvis (hsub a ha)

/-- The ids visited by the per-root BFS are exactly the ids reachable from
the root along forward edges. -/
theorem bfs_keys_iff_reach (edges : List Edge) (root : String) (x : String) :
    x ∈ (bfs edges [(root, 0)] [] []).map (fun p => p.1) ↔ Reach edges root x := by
  constructor
  · intro hx
    obtain ⟨q, hq, rfl⟩ := List.mem_map.mp hx
    refine bfs_sound edges root [(root, 0)] [] [] ?_ ?_ q hq
    · intro q2 hq2
      rw [List.mem_singleton] at hq2
      rw [hq2]
      exact Reach.refl root
    · intro y hy
      cases hy
  · intro hr
    obtain ⟨hc1, hc2⟩ := bfs_closed edges [(root, 0)] [] [] (by intro v hv; cases hv)
    induction hr with
    | refl => exact hc1 (root, 0) (List.mem_singleton_self _)
    | step h1 h2 ih => exact hc2 _ ih (by simp) _ h2

/-! ## Positioned-set characterisation of the layout -/

theorem parentsOf_isEmpty_iff (edges : List Edge) (id : String) :
    (parentsOf edges id).isEmpty = true ↔ ∀ e ∈ edges, e.target ≠ id := by
  unfold parentsOf
  rw [List.isEmpty_iff, List.map_eq_nil_iff, List.filter_eq_nil_iff]
  constructor
  · intro h e he ht
    exact absurd (decide_eq_true ht) (by simpa using h e he)
  · intro h e he
    simp only [decide_eq_true_eq]
    exact h e he

theorem placeTree_positioned (nm : List (String × GNode)) (ns ls : ℚ) (st : LayoutSt)
    (tn : List (String × Nat)) (x : String) :
    x ∈ (placeTree nm ns ls st tn).positioned ↔
      x ∈ st.positioned ∨ x ∈ tn.map (fun p => p.1) := by
  have hpos : (placeTree nm ns ls st tn).positioned =
      ((levelGroups tn).foldl (fun acc g1 =>
        placeNodes nm ns ls (st.currentY +
          (max ((maxNodesInLevel (levelGroups tn) : ℚ) * ns) ns -
            ((g1.2.length : ℚ) - 1) * ns) / 2) g1.1 g1.2 0 acc)
        (st.positioned, st.nodes, 0)).1 := rfl
  rw [hpos, fold_place_positioned]
  constructor
  · rintro (h | ⟨g1, hg1, hx⟩)
    · exact Or.inl h
    · obtain ⟨hg, -⟩ := mem_levelGroups tn g1.1 g1.2 hg1
      rw [hg] at hx
      exact Or.inr (List.mem_map_of_mem _ (mem_group_key tn g1.1 x hx))
  · rintro (h | h)
    · exact Or.inl h
    · obtain ⟨p, hp, rfl⟩ := List.mem_map.mp h
      refine Or.inr ⟨(p.2, (tn.filter (fun q => q.2 = p.2)).map (fun q => q.1)), ?_, ?_⟩
      · rw [levelGroups_eq]
        exact List.mem_map_of_mem _
          ((mem_jsUniq _ _).mpr (List.mem_map_of_mem (fun q => q.2) hp))
      · exact List.mem_map_of_mem _ (List.mem_filter.mpr ⟨hp, by simp⟩)

theorem placeTree_ids_inv (nm : List (String × GNode)) (hnm : ∀ kv ∈ nm, kv.2.id = kv.1)
    (ns ls : ℚ) (st : LayoutSt) (tn : List (String × Nat))
    (h : ∀ x, (∃ p ∈ st.nodes, p.id = x) ↔ x ∈ st.positioned) :
    ∀ x, (∃ p ∈ (placeTree nm ns ls st tn).nodes, p.id = x) ↔
      x ∈ (placeTree nm ns ls st tn).positioned := by
  intro x
  have hpos : (placeTree nm ns ls st tn).positioned =
      ((levelGroups tn).foldl (fun acc g1 =>
        placeNodes nm ns ls (st.currentY +
          (max ((maxNodesInLevel (levelGroups tn) : ℚ) * ns) ns -
            ((g1.2.length : ℚ) - 1) * ns) / 2) g1.1 g1.2 0 acc)
        (st.positioned, st.nodes, 0)).1 := rfl
  have hnodes : (placeTree nm ns ls st tn).nodes =
      ((levelGroups tn).foldl (fun acc g1 =>
        placeNodes nm ns ls (st.currentY +
          (max ((maxNodesInLevel (levelGroups tn) : ℚ) * ns) ns -
            ((g1.2.length : ℚ) - 1) * ns) / 2) g1.1 g1.2 0 acc)
        (st.positioned, st.nodes, 0)).2.1 := rfl
  rw [hpos, hnodes]
  exact fold_place_ids_inv nm hnm ns ls st.currentY
    (max ((maxNodesInLevel (levelGroups tn) : ℚ) * ns) ns) (levelGroups tn)
    (st.positioned, st.nodes, 0) h x

theorem fold_placeTree_roots (nm : List (String × GNode)) (hnm : ∀ kv ∈ nm, kv.2.id = kv.1)
    (ns ls : ℚ) (edges : List Edge) (roots : List GNode) :
    ∀ st : LayoutSt,
    (∀ x, (∃ p ∈ st.nodes, p.id = x) ↔ x ∈ st.positioned) →
    (∀ x, (∃ p ∈ (roots.foldl (fun st root =>
        placeTree nm ns ls st (bfs edges [(root.id, 0)] [] [])) st).nodes, p.id = x) ↔
      (x ∈ st.positioned ∨
        ∃ r ∈ roots, x ∈ (bfs edges [(r.id, 0)] [] []).map (fun p => p.1))) := by
  induction roots with
  | nil =>
    intro st hinv x
    rw [List.foldl_nil]
    rw [hinv x]
    simp
  | cons r rest ih =>
    intro st hinv x
    rw [List.foldl_cons]
    rw [ih (placeTree nm ns ls st (bfs edges [(r.id, 0)] [] []))
      (placeTree_ids_inv nm hnm ns ls st (bfs edges [(r.id, 0)] [] []) hinv) x]
    rw [placeTree_positioned]
    constructor
    · rintro ((h | h) | ⟨r2, hr2, hx⟩)
      · exact Or.inl h
      · exact Or.inr ⟨r, List.mem_cons_self _ _, h⟩
      · exact Or.inr ⟨r2, List.mem_cons_of_mem _ hr2, hx⟩
    · rintro (h | ⟨r2, hr2, hx⟩)
      · exact Or.inl (Or.inl h)
      · rcases List.mem_cons.mp hr2 with rfl | hr2
        · exact Or.inl (Or.inr hx)
        · exact Or.inr ⟨r2, hr2, hx⟩

theorem toD3Tree_nodes_ids (nodes : List GNode) (edges : List Edge) (ns ls : ℚ) (x : String) :
    (∃ p ∈ (toD3Tree nodes edges ns ls).1, p.id = x) ↔
      ∃ r ∈ nodes, (parentsOf edges r.id).isEmpty = true ∧
        x ∈ (bfs edges [(r.id, 0)] [] []).map (fun p => p.1) := by
  unfold toD3Tree
  split
  · rename_i hemp
    rw [List.isEmpty_iff] at hemp
    subst hemp
    simp
  · have hnm : ∀ kv ∈ nodes.map (fun n => (n.id, n)), kv.2.id = kv.1 := by
      intro kv hkv
      obtain ⟨n, -, rfl⟩ := List.mem_map.mp hkv
      rfl
    rw [fold_placeTree_roots (nodes.map (fun n => (n.id, n))) hnm ns ls edges
      (nodes.filter (fun n => (parentsOf edges n.id).isEmpty)) ⟨[], [], 100⟩
      (by intro z; simp) x]
    simp only [List.mem_filter]
    constructor
    · rintro (h | ⟨r, ⟨hr1, hr2⟩, hx⟩)
      · cases h
      · exact ⟨r, hr1, hr2, hx⟩
    · rintro ⟨r, hr1, hr2, hx⟩
      exact Or.inr ⟨r, ⟨hr1, hr2⟩, hx⟩

theorem toD3Tree_eq_of_ne (nodes : List GNode) (edges : List Edge) (ns ls : ℚ)
    (hne : nodes.isEmpty = false) :
    toD3Tree nodes edges ns ls =
      (((nodes.filter (fun n => (parentsOf edges n.id).isEmpty)).foldl
          (fun st root => placeTree (nodes.map (fun n => (n.id, n))) ns ls st
            (bfs edges [(root.id, 0)] [] [])) ⟨[], [], 100⟩).nodes,
       edges.filterMap (fun e =>
        match (((nodes.filter (fun n => (parentsOf edges n.id).isEmpty)).foldl
            (fun st root => placeTree (nodes.map (fun n => (n.id, n))) ns ls st
              (bfs edges [(root.id, 0)] [] [])) ⟨[], [], 100⟩).nodes).find?
            (fun p => p.id = e.source),
          (((nodes.filter (fun n => (parentsOf edges n.id).isEmpty)).foldl
            (fun st root => placeTree (nodes.map (fun n => (n.id, n))) ns ls st
              (bfs edges [(root.id, 0)] [] [])) ⟨[], [], 100⟩).nodes).find?
            (fun p => p.id = e.target) with
        | some s, some t => some (⟨s, t⟩ : PosLink)
        | _, _ => none)) := by
  unfold toD3Tree
  rw [if_neg (by rw [hne]; simp)]

theorem find?_posnode_id (l : List PosNode) (x : String) (p : PosNode)
    (h : l.find? (fun q => q.id = x) = some p) : p.id = x := by
  have h1 := List.find?_some h
  simpa using h1

theorem resolve_links_iff (out1 : List PosNode) (edges : List Edge) (e : Edge)
    (he : e ∈ edges) :
    (∃ l ∈ edges.filterMap (fun e2 =>
        match out1.find? (fun p => p.id = e2.source),
              out1.find? (fun p => p.id = e2.target) with
        | some s, some t => some (⟨s, t⟩ : PosLink)
        | _, _ => none),
      l.source.id = e.source ∧ l.target.id = e.target) ↔
    ((∃ p ∈ out1, p.id = e.source) ∧ (∃ p ∈ out1, p.id = e.target)) := by
  constructor
  · rintro ⟨l, hl, hs, ht⟩
    obtain ⟨e2, -, hmatch⟩ := List.mem_filterMap.mp hl
    cases hfs : out1.find? (fun p => p.id = e2.source) with
    | none => rw [hfs] at hmatch; cases hmatch
    | some s =>
      cases hft : out1.find? (fun p => p.id = e2.target) with
      | none => rw [hfs, hft] at hmatch; cases hmatch
      | some t =>
        rw [hfs, hft] at hmatch
        have hlst := Option.some.inj hmatch
        constructor
        · refine ⟨s, List.mem_of_find?_eq_some hfs, ?_⟩
          rw [show s = l.source from by rw [← hlst]]
          exact hs
        · refine ⟨t, List.mem_of_find?_eq_some hft, ?_⟩
          rw [show t = l.target from by rw [← hlst]]
          exact ht
  · rintro ⟨⟨s0, hs0, hsid⟩, ⟨t0, ht0, htid⟩⟩
    have hfs : (out1.find? (fun p => p.id = e.source)).isSome := by
      rw [List.find?_isSome]
      exact ⟨s0, hs0, by simp [hsid]⟩
    have hft : (out1.find? (fun p => p.id = e.target)).isSome := by
      rw [List.find?_isSome]
      exact ⟨t0, ht0, by simp [htid]⟩
    obtain ⟨s, hfs⟩ := Option.isSome_iff_exists.mp hfs
    obtain ⟨t, hft⟩ := Option.isSome_iff_exists.mp hft
    refine ⟨⟨s, t⟩, ?_, ?_, ?_⟩
    · apply List.mem_filterMap.mpr
      exact ⟨e, he, by rw [hfs, hft]⟩
    · exact find?_posnode_id out1 e.source s hfs
    · exact find?_posnode_id out1 e.target t hft

theorem resolve_links_sound (out1 : List PosNode) (edges : List Edge) :
    ∀ l ∈ edges.filterMap (fun e2 =>
        match out1.find? (fun p => p.id = e2.source),
              out1.find? (fun p => p.id = e2.target) with
        | some s, some t => some (⟨s, t⟩ : PosLink)
        | _, _ => none),
      ∃ e ∈ edges, l.source.id = e.source ∧ l.target.id = e.target ∧
        l.source ∈ out1 ∧ l.target ∈ out1 := by
  intro l hl
  obtain ⟨e2, he2, hmatch⟩ := List.mem_filterMap.mp hl
  cases hfs : out1.find? (fun p => p.id = e2.source) with
  | none => rw [hfs] at hmatch; cases hmatch
  | some s =>
    cases hft : out1.find? (fun p => p.id = e2.target) with
    | none => rw [hfs, hft] at hmatch; cases hmatch
    | some t =>
      rw [hfs, hft] at hmatch
      have hlst := Option.some.inj hmatch
      rw [← hlst]
      refine ⟨e2, he2, ?_, ?_, ?_, ?_⟩
      · exact find?_posnode_id out1 e2.source s hfs
      · exact find?_posnode_id out1 e2.target t hft
      · exact List.mem_of_find?_eq_some hfs
      · exact List.mem_of_find?_eq_some hft

/-! ## C9: the layout positions exactly the root-reachable nodes -/

/-- C9: the Tree Layout Engine positions exactly the nodes reachable along
forward edges from some root (a node with no incoming edge); its output
links are exactly the input edges whose source and target both received
positions, and every output link arises from an input edge with positioned
endpoints — an edge with an unpositioned endpoint is silently dropped (in
particular a rootless component, such as a prerequisite cycle, gets no
positions and no incident links). -/
theorem toD3Tree_reachability (nodes : List GNode) (edges : List Edge) (ns ls : ℚ) :
    (∀ n ∈ nodes, (∃ p ∈ (toD3Tree nodes edges ns ls).1, p.id = n.id) ↔
      ∃ r ∈ nodes, (∀ e ∈ edges, e.target ≠ r.id) ∧ Reach edges r.id n.id) ∧
    (∀ e ∈ edges, (∃ l ∈ (toD3Tree nodes edges ns ls).2,
        l.source.id = e.source ∧ l.target.id = e.target) ↔
      ((∃ p ∈ (toD3Tree nodes edges ns ls).1, p.id = e.source) ∧
       (∃ p ∈ (toD3Tree nodes edges ns ls).1, p.id = e.target))) ∧
    (∀ l ∈ (toD3Tree nodes edges ns ls).2, ∃ e ∈ edges,
      l.source.id = e.source ∧ l.target.id = e.target ∧
      l.source ∈ (toD3Tree nodes edges ns ls).1 ∧
      l.target ∈ (toD3Tree nodes edges ns ls).1) := by
  refine ⟨?_, ?_, ?_⟩
  · intro n hn
    rw [toD3Tree_nodes_ids]
    constructor
    · rintro ⟨r, hr, hroot, hx⟩
      exact ⟨r, hr, (parentsOf_isEmpty_iff edges r.id).mp hroot,
        (bfs_keys_iff_reach edges r.id n.id).mp hx⟩
    · rintro ⟨r, hr, hroot, hx⟩
      exact ⟨r, hr, (parentsOf_isEmpty_iff edges r.id).mpr hroot,
        (bfs_keys_iff_reach edges r.id n.id).mpr hx⟩
  · intro e he
    cases hemp : nodes.isEmpty with
    | true =>
      have h1 : toD3Tree nodes edges ns ls = ([], []) := by
        unfold toD3Tree
        rw [if_pos hemp]
      rw [h1]
      simp
    | false =>
      rw [toD3Tree_eq_of_ne nodes edges ns ls hemp]
      exact resolve_links_iff _ edges e he
  · intro l hl
    cases hemp : nodes.isEmpty with
    | true =>
      have h1 : toD3Tree nodes edges ns ls = ([], []) := by
        unfold toD3Tree
        rw [if_pos hemp]
      rw [h1] at hl
      simp at hl
    | false =>
      rw [toD3Tree_eq_of_ne nodes edges ns ls hemp] at hl ⊢
      exact resolve_links_sound _ edges l hl

/-- Witness for C7 at a two-level tree. -/
theorem placeTree_layout_formulas_witness :
    (∀ kv ∈ [("a", (⟨"a", "A", "note"⟩ : GNode)), ("b", ⟨"b", "B", "note"⟩),
        ("c", ⟨"c", "C", "note"⟩)], kv.2.id = kv.1) ∧
    (([("a", 0), ("b", 1), ("c", 1)] : List (String × Nat)).map (fun p => p.1)).Nodup ∧
    (∀ p ∈ ([("a", 0), ("b", 1), ("c", 1)] : List (String × Nat)),
      p.1 ∉ (⟨[], [], 100⟩ : LayoutSt).positioned) ∧
    ((∀ (d : Nat) (g : List String),
      (d, g) ∈ levelGroups [("a", 0), ("b", 1), ("c", 1)] →
      ∀ (i : Nat) (hi : i < g.length),
      ∃ p ∈ (placeTree [("a", (⟨"a", "A", "note"⟩ : GNode)), ("b", ⟨"b", "B", "note"⟩),
          ("c", ⟨"c", "C", "note"⟩)] 100 220 ⟨[], [], 100⟩
          [("a", 0), ("b", 1), ("c", 1)]).nodes,
        p.id = g.get ⟨i, hi⟩ ∧
        p.x = 100 + (d : ℚ) * 220 ∧
        p.y = (⟨[], [], 100⟩ : LayoutSt).currentY +
          (max ((maxNodesInLevel (levelGroups [("a", 0), ("b", 1), ("c", 1)]) : ℚ) * 100) 100 -
          ((g.length : ℚ) - 1) * 100) / 2 + (i : ℚ) * 100) ∧
    (placeTree [("a", (⟨"a", "A", "note"⟩ : GNode)), ("b", ⟨"b", "B", "note"⟩),
        ("c", ⟨"c", "C", "note"⟩)] 100 220 ⟨[], [], 100⟩
        [("a", 0), ("b", 1), ("c", 1)]).currentY =
      (if ([("a", 0), ("b", 1), ("c", 1)] : List (String × Nat)) = []
       then (⟨[], [], 100⟩ : LayoutSt).currentY
       else (⟨[], [], 100⟩ : LayoutSt).currentY +
         max ((maxNodesInLevel (levelGroups [("a", 0), ("b", 1), ("c", 1)]) : ℚ) * 100) 100
           + 80)) :=
  ⟨by decide, by decide, by decide,
    placeTree_layout_formulas [("a", (⟨"a", "A", "note"⟩ : GNode)), ("b", ⟨"b", "B", "note"⟩),
      ("c", ⟨"c", "C", "note"⟩)] 100 220 ⟨[], [], 100⟩ [("a", 0), ("b", 1), ("c", 1)]
      (by decide) (by decide) (by decide)⟩

/-- Witness for C9 at a graph with one root chain `A → B` and a rootless
two-cycle `D ⇄ E`. -/
theorem toD3Tree_reachability_witness :
    (∀ n ∈ [(⟨"A", "a", "topic"⟩ : GNode), ⟨"B", "b", "note"⟩, ⟨"D", "d", "note"⟩,
        ⟨"E", "e", "note"⟩],
      (∃ p ∈ (toD3Tree [(⟨"A", "a", "topic"⟩ : GNode), ⟨"B", "b", "note"⟩,
          ⟨"D", "d", "note"⟩, ⟨"E", "e", "note"⟩]
          [⟨"ab", "A", "B"⟩, ⟨"de", "D", "E"⟩, ⟨"ed", "E", "D"⟩] 100 220).1, p.id = n.id) ↔
      ∃ r ∈ [(⟨"A", "a", "topic"⟩ : GNode), ⟨"B", "b", "note"⟩, ⟨"D", "d", "note"⟩,
          ⟨"E", "e", "note"⟩],
        (∀ e ∈ [(⟨"ab", "A", "B"⟩ : Edge), ⟨"de", "D", "E"⟩, ⟨"ed", "E", "D"⟩],
          e.target ≠ r.id) ∧
        Reach [⟨"ab", "A", "B"⟩, ⟨"de", "D", "E"⟩, ⟨"ed", "E", "D"⟩] r.id n.id) ∧
    (∀ e ∈ [(⟨"ab", "A", "B"⟩ : Edge), ⟨"de", "D", "E"⟩, ⟨"ed", "E", "D"⟩],
      (∃ l ∈ (toD3Tree [(⟨"A", "a", "topic"⟩ : GNode), ⟨"B", "b", "note"⟩,
          ⟨"D", "d", "note"⟩, ⟨"E", "e", "note"⟩]
          [⟨"ab", "A", "B"⟩, ⟨"de", "D", "E"⟩, ⟨"ed", "E", "D"⟩] 100 220).2,
        l.source.id = e.source ∧ l.target.id = e.target) ↔
      ((∃ p ∈ (toD3Tree [(⟨"A", "a", "topic"⟩ : GNode), ⟨"B", "b", "note"⟩,
          ⟨"D", "d", "note"⟩, ⟨"E", "e", "note"⟩]
          [⟨"ab", "A", "B"⟩, ⟨"de", "D", "E"⟩, ⟨"ed", "E", "D"⟩] 100 220).1,
          p.id = e.source) ∧
       (∃ p ∈ (toD3Tree [(⟨"A", "a", "topic"⟩ : GNode), ⟨"B", "b", "note"⟩,
          ⟨"D", "d", "note"⟩, ⟨"E", "e", "note"⟩]
          [⟨"ab", "A", "B"⟩, ⟨"de", "D", "E"⟩, ⟨"ed", "E", "D"⟩] 100 220).1,
          p.id = e.target))) ∧
    (∀ l ∈ (toD3Tree [(⟨"A", "a", "topic"⟩ : GNode), ⟨"B", "b", "note"⟩,
          ⟨"D", "d", "note"⟩, ⟨"E", "e", "note"⟩]
          [⟨"ab", "A", "B"⟩, ⟨"de", "D", "E"⟩, ⟨"ed", "E", "D"⟩] 100 220).2,
      ∃ e ∈ [(⟨"ab", "A", "B"⟩ : Edge), ⟨"de", "D", "E"⟩, ⟨"ed", "E", "D"⟩],
        l.source.id = e.source ∧ l.target.id = e.target ∧
        l.source ∈ (toD3Tree [(⟨"A", "a", "topic"⟩ : GNode), ⟨"B", "b", "note"⟩,
          ⟨"D", "d", "note"⟩, ⟨"E", "e", "note"⟩]
          [⟨"ab", "A", "B"⟩, ⟨"de", "D", "E"⟩, ⟨"ed", "E", "D"⟩] 100 220).1 ∧
        l.target ∈ (toD3Tree [(⟨"A", "a", "topic"⟩ : GNode), ⟨"B", "b", "note"⟩,
          ⟨"D", "d", "note"⟩, ⟨"E", "e", "note"⟩]
          [⟨"ab", "A", "B"⟩, ⟨"de", "D", "E"⟩, ⟨"ed", "E", "D"⟩] 100 220).1) :=
  toD3Tree_reachability [(⟨"A", "a", "topic"⟩ : GNode), ⟨"B", "b", "note"⟩,
    ⟨"D", "d", "note"⟩, ⟨"E", "e", "note"⟩]
    [⟨"ab", "A", "B"⟩, ⟨"de", "D", "E"⟩, ⟨"ed", "E", "D"⟩] 100 220
